import Mathlib

/-!
Verification of the blog-index generator (`update_blog_readme.py`).

Text is modelled as `List Char`.  Python string operations (`strip`,
`rstrip`, `lstrip`, `splitlines`, `"\n".join`) are embedded below with
`'\n'` as the only line terminator and the ASCII whitespace characters
of Python's `str.strip`.  The two regular expressions `TITLE_RE` and
`DATE_RE` are embedded by their matching semantics, which were worked
out from the Python `re` module (including the backtracking of the
non-greedy group in `TITLE_RE`).
-/

set_option maxHeartbeats 1000000

namespace Blog

/-- The ASCII whitespace characters stripped by Python's `str.strip()`. -/
def pyWs (c : Char) : Bool :=
  c = ' ' || c = '\t' || c = '\n' || c = '\r' || c = '\x0b' || c = '\x0c'

/-- The characters on which Python's `str.strip` or `str.splitlines`
semantics go beyond this embedding's model of them: the line terminators
other than newline (U+000B, U+000C, U+000D, U+001C, U+001D, U+001E,
U+0085, U+2028, U+2029, which the embedding does not split at) and the
whitespace characters beyond space, tab and newline (U+001F, U+00A0,
U+1680, U+2000 through U+200A, U+202F, U+205F, U+3000, which the
embedding does not strip).  On text containing none of these characters
the embedding's `strip`, `rstrip`, `lstrip` and `splitlines` agree with
Python exactly. -/
def pyOddWs (c : Char) : Bool :=
  c.toNat == 0x0b || c.toNat == 0x0c || c.toNat == 0x0d ||
  c.toNat == 0x1c || c.toNat == 0x1d || c.toNat == 0x1e ||
  c.toNat == 0x1f || c.toNat == 0x85 || c.toNat == 0xa0 ||
  c.toNat == 0x1680 ||
  (decide (0x2000 ≤ c.toNat) && decide (c.toNat ≤ 0x200a)) ||
  c.toNat == 0x2028 || c.toNat == 0x2029 || c.toNat == 0x202f ||
  c.toNat == 0x205f || c.toNat == 0x3000

/-- Embeds `str.lstrip()` -/
def lstrip (s : List Char) : List Char := s.dropWhile pyWs

/-- Embeds `str.rstrip()` -/
def rstrip : List Char → List Char
  | [] => []
  | c :: s =>
    match rstrip s with
    | [] => if pyWs c then [] else [c]
    | d :: l => c :: d :: l

/-- Embeds `str.strip()` -/
def strip (s : List Char) : List Char := rstrip (lstrip s)

/-- Embeds `str.splitlines()` with `'\n'` as the only line terminator.
Python additionally splits at the terminators listed in `pyOddWs`; this
model therefore agrees with Python exactly on text free of `pyOddWs`
characters, and statements that depend on the line structure of arbitrary
input text restrict themselves to that domain. -/
def splitlines : List Char → List (List Char)
  | [] => []
  | c :: rest =>
    if c = '\n' then [] :: splitlines rest
    else
      match splitlines rest with
      | [] => [[c]]
      | l :: ls => (c :: l) :: ls

/-- Embeds `"\n".join(lines)` -/
def joinNl : List (List Char) → List Char
  | [] => []
  | [l] => l
  | l :: l₂ :: ls => l ++ '\n' :: joinNl (l₂ :: ls)

/-- Apply `f` to the last element of a list of lines (helper for lemmas). -/
def mapLast (f : List Char → List Char) : List (List Char) → List (List Char)
  | [] => []
  | [l] => [f l]
  | l :: l₂ :: ls => l :: mapLast f (l₂ :: ls)

/-! ### The section splicer (`replace_blog_section`) -/

/-- The sentinel heading `'# Blog'`. -/
def sentinel : List Char := "# Blog".toList

/-- Embeds `line.startswith("# ")` -/
def startsH1 (l : List Char) : Bool := "# ".toList.isPrefixOf l

/-- The first index whose line strips to the sentinel
(the `for idx, line in enumerate(lines)` search). -/
def findSent : List (List Char) → Option Nat
  | [] => none
  | l :: ls => if strip l = sentinel then some 0 else (findSent ls).map (· + 1)

/-- The first index whose line starts a new H1
(the `for idx in range(start + 1, len(lines))` search, relative). -/
def findH1 : List (List Char) → Option Nat
  | [] => none
  | l :: ls => if startsH1 l then some 0 else (findH1 ls).map (· + 1)

/-- The `end` computed by the source: the next H1 after `start`, or the
number of lines. -/
def spliceEnd (lines : List (List Char)) (start : Nat) : Nat :=
  match findH1 (lines.drop (start + 1)) with
  | some k => start + 1 + k
  | none => lines.length

/-- Embeds `before = "\n".join(lines[:start]).rstrip()` -/
def spliceBefore (lines : List (List Char)) (start : Nat) : List Char :=
  rstrip (joinNl (lines.take start))

/-- Embeds `after = "\n".join(lines[end:]).lstrip()` -/
def spliceAfter (lines : List (List Char)) (start : Nat) : List Char :=
  lstrip (joinNl (lines.drop (spliceEnd lines start)))

/-- The `combined` value built when the sentinel was found. -/
def spliceFound (lines : List (List Char)) (start : Nat)
    (new_section : List Char) : List Char :=
  (if spliceBefore lines start = [] then []
    else spliceBefore lines start ++ ['\n', '\n'])
  ++ strip new_section ++ ['\n']
  ++ (if spliceAfter lines start = [] then []
      else '\n' :: (rstrip (spliceAfter lines start) ++ ['\n']))

/-- Embeds `replace_blog_section(readme_text, new_section)` from the source. -/
def replace_blog_section (readme_text new_section : List Char) : List Char :=
  match findSent (splitlines readme_text) with
  | none =>
      rstrip readme_text ++ '\n' :: '\n' :: (strip new_section ++ ['\n'])
  | some start =>
      spliceFound (splitlines readme_text) start new_section

/-! ### The post extractor (`parse_post`) -/

/-- A blog post record (the frozen `Post` dataclass; the date is kept
as its year, month and day components). -/
structure Post where
  title : List Char
  year : Nat
  month : Nat
  day : Nat
  relpath : List Char
deriving DecidableEq, Repr

def isLeap (y : Nat) : Bool := y % 4 = 0 && (y % 100 ≠ 0 || y % 400 = 0)

def daysInMonth (y m : Nat) : Nat :=
  if m = 2 then (if isLeap y then 29 else 28)
  else if m = 4 || m = 6 || m = 9 || m = 11 then 30
  else 31

/-- Success condition of `datetime.date.fromisoformat` on an already
well-shaped `YYYY-MM-DD` literal (year 0 is below `MINYEAR`). -/
def isValidDate (y m d : Nat) : Bool :=
  1 ≤ y && 1 ≤ m && m ≤ 12 && 1 ≤ d && d ≤ daysInMonth y m

def digitVal (c : Char) : Nat := c.toNat - 48

/-- Matching semantics of `TITLE_RE = ^\s*#\s+(.+?)\s*$` followed by
`.group(1).strip()`: the line, after dropping leading whitespace, must
be `'#'`, one whitespace character, and at least one further character;
the title is everything after the `'#'`, stripped.  (When the tail is
all whitespace the non-greedy group captures a single whitespace
character, so the stripped title is empty.) -/
def titleOf (line : List Char) : Option (List Char) :=
  match lstrip line with
  | a :: c :: t2 => if a = '#' ∧ pyWs c ∧ t2 ≠ [] then some (strip t2) else none
  | _ => none

/-- Matching semantics of `DATE_RE = ^\s*\*\*(\d{4}-\d{2}-\d{2})\*\*\s*$`:
the stripped line must be exactly `**` + four digits + `-` + two digits
+ `-` + two digits + `**`; yields (year, month, day). -/
def dateOf (line : List Char) : Option (Nat × Nat × Nat) :=
  match strip line with
  | ['*', '*', a, b, c, d, '-', e, f, '-', g, h, '*', '*'] =>
    if a.isDigit ∧ b.isDigit ∧ c.isDigit ∧ d.isDigit ∧
       e.isDigit ∧ f.isDigit ∧ g.isDigit ∧ h.isDigit then
      some (1000 * digitVal a + 100 * digitVal b + 10 * digitVal c + digitVal d,
            10 * digitVal e + digitVal f,
            10 * digitVal g + digitVal h)
    else none
  | _ => none

/-- The `while i < len(lines) and lines[i].strip() == ""` loops. -/
def skipBlank (ls : List (List Char)) : List (List Char) :=
  ls.dropWhile (fun l => (strip l).isEmpty)

/-- Embeds `parse_post` from the source, over the file's decoded content and
its forward-slash relative path. -/
def parse_post (text relpath : List Char) : Option Post :=
  match skipBlank (splitlines text) with
  | [] => none
  | tline :: rest =>
    match titleOf tline with
    | none => none
    | some title =>
      match skipBlank rest with
      | [] => none
      | dline :: _ =>
        match dateOf dline with
        | none => none
        | some (y, m, d) =>
          if isValidDate y m d then some ⟨title, y, m, d, relpath⟩ else none

/-! ### The collector (`collect_posts`) -/

/-- Python string `<=` (lexicographic by code point). -/
def strLe : List Char → List Char → Bool
  | [], _ => true
  | _ :: _, [] => false
  | a :: s, b :: t => if a.toNat = b.toNat then strLe s t else decide (a.toNat < b.toNat)

/-- The date as a single number; on the dates `parse_post` can produce
(month ≤ 12, day ≤ 31) this ordering is exactly chronological order. -/
def dateNum (p : Post) : Nat := p.year * 10000 + p.month * 100 + p.day

/-- True iff `a` sorts no later than `b` under
`posts.sort(key=lambda p: (p.d, p.relpath), reverse=True)`. -/
def keyGeB (a b : Post) : Bool :=
  decide (dateNum b < dateNum a) ||
    (decide (dateNum a = dateNum b) && strLe b.relpath a.relpath)

/-- Embeds `rglob("*.md")` name filter. -/
def endsMd (p : List Char) : Bool := ".md".toList.isSuffixOf p

/-- Embeds `collect_posts` from the source, over the walked files given as
(relative posix path, decoded content) pairs. -/
def collect_posts (files : List (List Char × List Char)) : List Post :=
  ((files.filter (fun f => endsMd f.1)).filterMap
      (fun f => parse_post f.2 f.1)).mergeSort keyGeB

/-! ### The link renderer (`to_blog_link`) and `render_blog_section` -/

def BASE_URL : List Char := "https://8hantanu.net/wiki".toList

def lowerStr (s : List Char) : List Char := s.map Char.toLower

/-- Embeds `"/".join(segments)` -/
def joinSlash (segs : List (List Char)) : List Char := ['/'].intercalate segs

/-- Embeds `PurePath.name`: the last path component of a relative posix path. -/
def pathName (p : List Char) : List Char := (p.splitOn '/').getLastD []

/-- Embeds `p.parent.as_posix()` for a relative posix path. -/
def parentPosix (p : List Char) : List Char :=
  if (p.splitOn '/').length ≤ 1 then ".".toList
  else joinSlash (p.splitOn '/').dropLast

/-- Index of the last `'.'` in a name (`str.rfind('.')`). -/
def rfindDot (name : List Char) : Option Nat :=
  match name.reverse.findIdx? (fun c => c = '.') with
  | none => none
  | some k => some (name.length - 1 - k)

/-- Embeds `PurePath.suffix` of a final component (pathlib: the part from the
last dot, provided that dot is neither first nor last in the name). -/
def suffixOf (name : List Char) : List Char :=
  match rfindDot name with
  | some i => if 0 < i ∧ i < name.length - 1 then name.drop i else []
  | none => []

def pathSuffix (p : List Char) : List Char := suffixOf (pathName p)

/-- Embeds `PurePath.stem` of a final component: the name with its suffix
removed. -/
def stemOf (name : List Char) : List Char :=
  match rfindDot name with
  | some i => if 0 < i ∧ i < name.length - 1 then name.take i else name
  | none => name

/-- Embeds `p.with_suffix("").as_posix()`: the path with the final component
replaced by its stem. -/
def withNoSuffix (p : List Char) : List Char :=
  joinSlash ((p.splitOn '/').dropLast ++ [stemOf (pathName p)])

/-- Embeds `to_blog_link` from the source. -/
def to_blog_link (relpath : List Char) : List Char :=
  if lowerStr (pathName relpath) = "readme.md".toList then
    if parentPosix relpath = ".".toList then BASE_URL
    else BASE_URL ++ '/' :: parentPosix relpath
  else if lowerStr (pathSuffix relpath) = ".md".toList then
    BASE_URL ++ '/' :: withNoSuffix relpath
  else
    BASE_URL ++ '/' :: relpath

/-- Embeds `render_blog_section` from the source. -/
def render_blog_section (posts : List Post) : List Char :=
  let header : List (List Char) :=
    ["# Shantanu's blog ✒️".toList, [],
     "**Collection of the latest and greatest pages from the wiki 📖**".toList, []]
  let years := ((posts.map (·.year)).dedup).mergeSort (fun a b => decide (b ≤ a))
  let body := (years.map (fun y =>
    ("## ".toList ++ (Nat.repr y).toList) ::
      ((posts.filter (fun p => p.year == y)).map (fun p =>
        "- [".toList ++ p.title ++ "](".toList ++ to_blog_link p.relpath ++ [')']))
      ++ [([] : List Char)])).flatten
  joinNl (header ++ body)

/-! ### The driver (`main`) -/

/-- What sits at the scan-root path. -/
inductive RootKind | missing | file | dir
deriving DecidableEq, Repr

inductive RunErr | missingRoot
deriving DecidableEq, Repr

/-- The filesystem as `main` observes it: what is at `wiki`, the walked
markdown files when it is a directory, and the current README text. -/
structure Fs where
  rootKind : RootKind
  files : List (List Char × List Char)
  readme : Option (List Char)

/-- The files `WIKI_DIR.rglob("*.md")` yields: the directory's files, or
nothing when the root is a regular file (pathlib yields no entries and
raises nothing in that case). -/
def walkFiles (fs : Fs) : List (List Char × List Char) :=
  match fs.rootKind with
  | .dir => fs.files
  | _ => []

/-- Embeds `main` from the source: `WIKI_DIR.exists()` is true for both a file
and a directory; the result is the text written to the README, or the
`SystemExit` for a missing root. -/
def main (fs : Fs) : Except RunErr (List Char) :=
  if fs.rootKind = .missing then .error .missingRoot
  else
    let posts := collect_posts (walkFiles fs)
    let new_blog := render_blog_section posts
    let existing := fs.readme.getD []
    .ok (replace_blog_section existing new_blog)

/-! ### Shapes claimed by the specification (for comparison only) -/

/-- The spec's strict title shape `^#\s+(.+)$`: a `'#'` at the very
start of the line (no leading whitespace), whitespace, then text. -/
def specTitleShape (line : List Char) : Bool :=
  match line with
  | '#' :: c :: t2 => pyWs c && !t2.isEmpty
  | _ => false

/-- The spec's strict date shape `^\*\*(\d{4}-\d{2}-\d{2})\*\*$`: the
bold ISO date with nothing else on the line, not even whitespace. -/
def specDateShape (line : List Char) : Bool :=
  match line with
  | ['*', '*', a, b, c, d, '-', e, f, '-', g, h, '*', '*'] =>
    a.isDigit && b.isDigit && c.isDigit && d.isDigit &&
      e.isDigit && f.isDigit && g.isDigit && h.isDigit
  | _ => false

/-! ## Lemmas about the string primitives -/

@[simp] theorem lstrip_nil : lstrip [] = [] := rfl

theorem lstrip_cons (c : Char) (s : List Char) :
    lstrip (c :: s) = if pyWs c then lstrip s else c :: s := by
  simp [lstrip, List.dropWhile_cons]

theorem lstrip_append (x y : List Char) :
    lstrip (x ++ y) = if lstrip x = [] then lstrip y else lstrip x ++ y := by
  induction x with
  | nil => simp
  | cons c s ih =>
    by_cases h : pyWs c
    · simpa [lstrip_cons, h] using ih
    · simp [lstrip_cons, h]

theorem lstrip_head?_not_ws (s : List Char) (c : Char)
    (h : (lstrip s).head? = some c) : pyWs c = false := by
  induction s with
  | nil => simp [lstrip] at h
  | cons a t ih =>
    rw [lstrip_cons] at h
    by_cases ha : pyWs a
    · rw [if_pos ha] at h; exact ih h
    · rw [if_neg ha] at h
      simp only [List.head?_cons, Option.some.injEq] at h
      subst h
      simpa using ha

theorem lstrip_eq_self (s : List Char)
    (h : ∀ c, s.head? = some c → pyWs c = false) : lstrip s = s := by
  cases s with
  | nil => rfl
  | cons a t =>
    rw [lstrip_cons, if_neg]
    simp [h a rfl]

theorem lstrip_idem (s : List Char) : lstrip (lstrip s) = lstrip s :=
  lstrip_eq_self _ (lstrip_head?_not_ws s)

theorem lstrip_eq_nil_of_all (s : List Char)
    (h : ∀ c ∈ s, pyWs c = true) : lstrip s = [] := by
  induction s with
  | nil => rfl
  | cons a t ih =>
    rw [lstrip_cons, if_pos (h a (List.mem_cons_self a t))]
    exact ih fun c hc => h c (List.mem_cons_of_mem a hc)

theorem lstrip_decomp (s : List Char) :
    ∃ w, (∀ c ∈ w, pyWs c = true) ∧ s = w ++ lstrip s :=
  ⟨s.takeWhile pyWs, fun _ hc => List.mem_takeWhile_imp hc,
    (List.takeWhile_append_dropWhile pyWs s).symm⟩

@[simp] theorem rstrip_nil : rstrip [] = [] := rfl

theorem rstrip_cons (c : Char) (s : List Char) :
    rstrip (c :: s) = match rstrip s with
      | [] => if pyWs c then [] else [c]
      | d :: l => c :: d :: l := rfl

theorem rstrip_eq_nil_iff (s : List Char) :
    rstrip s = [] ↔ ∀ c ∈ s, pyWs c = true := by
  induction s with
  | nil => simp
  | cons a t ih =>
    rw [rstrip_cons]
    cases h : rstrip t with
    | nil =>
      have ht : ∀ c ∈ t, pyWs c = true := ih.mp h
      constructor
      · intro heq c hc
        rcases List.mem_cons.mp hc with rfl | hc
        · by_contra hca
          rw [if_neg hca] at heq
          exact absurd heq (by simp)
        · exact ht c hc
      · intro hall
        rw [if_pos (hall a (List.mem_cons_self a t))]
    | cons d l =>
      constructor
      · intro hcon; exact absurd hcon (by simp)
      · intro hall
        have h0 : rstrip t = [] := ih.mpr fun c hc => hall c (List.mem_cons_of_mem a hc)
        rw [h0] at h
        exact absurd h (by simp)

theorem rstrip_eq_nil_of_all (s : List Char)
    (h : ∀ c ∈ s, pyWs c = true) : rstrip s = [] :=
  (rstrip_eq_nil_iff s).mpr h

theorem rstrip_append_ws (w : List Char) (hw : ∀ c ∈ w, pyWs c = true)
    (s : List Char) : rstrip (s ++ w) = rstrip s := by
  induction s with
  | nil => simpa using rstrip_eq_nil_of_all w hw
  | cons a t ih =>
    rw [List.cons_append, rstrip_cons, rstrip_cons, ih]

theorem rstrip_decomp (s : List Char) :
    ∃ w, (∀ c ∈ w, pyWs c = true) ∧ s = rstrip s ++ w := by
  induction s with
  | nil => exact ⟨[], by simp, rfl⟩
  | cons a t ih =>
    obtain ⟨w, hw, ht⟩ := ih
    rw [rstrip_cons]
    cases h : rstrip t with
    | nil =>
      rw [h, List.nil_append] at ht
      subst ht
      by_cases ha : pyWs a
      · rw [if_pos ha]
        refine ⟨a :: t, ?_, by simp⟩
        intro c hc
        rcases List.mem_cons.mp hc with rfl | hc
        · exact ha
        · exact hw c hc
      · rw [if_neg ha]
        exact ⟨t, hw, by simp⟩
    | cons d l =>
      rw [h] at ht
      exact ⟨w, hw, by rw [ht]; simp⟩

theorem rstrip_getLast?_not_ws (s : List Char) (c : Char)
    (h : (rstrip s).getLast? = some c) : pyWs c = false := by
  induction s with
  | nil => simp at h
  | cons a t ih =>
    rw [rstrip_cons] at h
    cases ht : rstrip t with
    | nil =>
      rw [ht] at h
      by_cases ha : pyWs a
      · rw [if_pos ha] at h; simp at h
      · rw [if_neg ha] at h
        simp only [List.getLast?_singleton, Option.some.injEq] at h
        subst h; simpa using ha
    | cons d l =>
      rw [ht] at h
      rw [List.getLast?_cons_cons] at h
      exact ih (ht ▸ h)

theorem rstrip_idem (s : List Char) : rstrip (rstrip s) = rstrip s := by
  induction s with
  | nil => rfl
  | cons a t ih =>
    rw [rstrip_cons]
    cases ht : rstrip t with
    | nil =>
      by_cases ha : pyWs a
      · simp [ha]
      · simp [ha, rstrip_cons]
    | cons d l =>
      rw [rstrip_cons]
      rw [ht] at ih
      rw [show rstrip (d :: l) = d :: l from ih]

theorem rstrip_head?_eq (s : List Char) (h : rstrip s ≠ []) :
    (rstrip s).head? = s.head? := by
  cases s with
  | nil => rfl
  | cons a t =>
    rw [rstrip_cons] at h ⊢
    cases ht : rstrip t with
    | nil =>
      rw [ht] at h
      by_cases ha : pyWs a
      · rw [if_pos ha] at h; exact absurd rfl h
      · rw [if_neg ha]; rfl
    | cons d l => rfl

@[simp] theorem strip_nil : strip [] = [] := rfl

theorem strip_head?_not_ws (s : List Char) (c : Char)
    (h : (strip s).head? = some c) : pyWs c = false := by
  unfold strip at h
  rcases hne : rstrip (lstrip s) with _ | ⟨d, l⟩
  · rw [hne] at h; simp at h
  · rw [rstrip_head?_eq (lstrip s) (by simp [hne])] at h
    exact lstrip_head?_not_ws s c h

theorem lstrip_strip (s : List Char) : lstrip (strip s) = strip s :=
  lstrip_eq_self _ (strip_head?_not_ws s)

theorem rstrip_strip (s : List Char) : rstrip (strip s) = strip s :=
  rstrip_idem (lstrip s)

theorem strip_idem (s : List Char) : strip (strip s) = strip s := by
  unfold strip
  rw [show lstrip (rstrip (lstrip s)) = rstrip (lstrip s) from lstrip_strip s]
  exact rstrip_idem (lstrip s)

theorem strip_getLast?_not_ws (s : List Char) (c : Char)
    (h : (strip s).getLast? = some c) : pyWs c = false :=
  rstrip_getLast?_not_ws (lstrip s) c h

theorem strip_cons_ws (c : Char) (hc : pyWs c = true) (s : List Char) :
    strip (c :: s) = strip s := by
  unfold strip
  rw [lstrip_cons, if_pos hc]

theorem strip_append_ws (w : List Char) (hw : ∀ c ∈ w, pyWs c = true)
    (s : List Char) : strip (s ++ w) = strip s := by
  unfold strip
  rw [lstrip_append]
  by_cases h : lstrip s = []
  · rw [if_pos h, h, lstrip_eq_nil_of_all w hw]
  · rw [if_neg h, rstrip_append_ws w hw]

theorem strip_eq_nil_iff (s : List Char) :
    strip s = [] ↔ ∀ c ∈ s, pyWs c = true := by
  constructor
  · intro h c hc
    obtain ⟨w, hw, hs⟩ := lstrip_decomp s
    have hl : ∀ c ∈ lstrip s, pyWs c = true := (rstrip_eq_nil_iff _).mp h
    rw [hs] at hc
    rcases List.mem_append.mp hc with hc | hc
    · exact hw c hc
    · exact hl c hc
  · intro h
    unfold strip
    rw [lstrip_eq_nil_of_all s h]; rfl

/-! ## Lemmas about `splitlines`, `joinNl` and `mapLast` -/

@[simp] theorem splitlines_nil : splitlines [] = [] := rfl

theorem splitlines_cons_nl (r : List Char) :
    splitlines ('\n' :: r) = [] :: splitlines r := by
  rw [splitlines, if_pos rfl]

theorem splitlines_cons_ne (c : Char) (hc : c ≠ '\n') (r : List Char) :
    splitlines (c :: r) = match splitlines r with
      | [] => [[c]]
      | l :: ls => (c :: l) :: ls := by
  rw [splitlines, if_neg hc]

theorem splitlines_eq_nil_iff (z : List Char) : splitlines z = [] ↔ z = [] := by
  cases z with
  | nil => simp
  | cons c r =>
    constructor
    · intro h
      by_cases hc : c = '\n'
      · subst hc; rw [splitlines_cons_nl] at h; exact absurd h (by simp)
      · rw [splitlines_cons_ne c hc] at h
        cases hr : splitlines r with
        | nil => rw [hr] at h; exact absurd h (by simp)
        | cons l ls => rw [hr] at h; exact absurd h (by simp)
    · intro h; exact absurd h (by simp)

theorem splitlines_append_nl_cons (x y : List Char) :
    splitlines (x ++ '\n' :: y) = splitlines (x ++ ['\n']) ++ splitlines y := by
  induction x with
  | nil =>
    simp only [List.nil_append]
    rw [splitlines_cons_nl, splitlines_cons_nl]
    simp
  | cons c x ih =>
    by_cases hc : c = '\n'
    · subst hc
      rw [List.cons_append, splitlines_cons_nl, List.cons_append,
        splitlines_cons_nl, ih]
      simp
    · rw [List.cons_append, splitlines_cons_ne c hc, List.cons_append,
        splitlines_cons_ne c hc, ih]
      cases hh : splitlines (x ++ ['\n']) with
      | nil =>
        rw [splitlines_eq_nil_iff] at hh
        exact absurd hh (by simp)
      | cons l ls => simp

theorem splitlines_append_nl (x : List Char) (hx : x ≠ [])
    (hl : x.getLast? ≠ some '\n') : splitlines (x ++ ['\n']) = splitlines x := by
  induction x with
  | nil => exact absurd rfl hx
  | cons c x ih =>
    cases x with
    | nil =>
      have hc : c ≠ '\n' := by simpa using hl
      simp [splitlines, hc]
    | cons d x' =>
      have hl' : (d :: x').getLast? ≠ some '\n' := by
        rwa [List.getLast?_cons_cons] at hl
      by_cases hc : c = '\n'
      · subst hc
        rw [List.cons_append, splitlines_cons_nl, splitlines_cons_nl,
          ih (by simp) hl']
      · rw [List.cons_append, splitlines_cons_ne c hc, splitlines_cons_ne c hc,
          ih (by simp) hl']

@[simp] theorem joinNl_nil : joinNl [] = [] := rfl

@[simp] theorem joinNl_single (l : List Char) : joinNl [l] = l := rfl

theorem joinNl_cons (l : List Char) (ls : List (List Char)) (h : ls ≠ []) :
    joinNl (l :: ls) = l ++ '\n' :: joinNl ls := by
  cases ls with
  | nil => exact absurd rfl h
  | cons m ms => rfl

theorem joinNl_append (L₁ L₂ : List (List Char)) (h₁ : L₁ ≠ []) (h₂ : L₂ ≠ []) :
    joinNl (L₁ ++ L₂) = joinNl L₁ ++ '\n' :: joinNl L₂ := by
  induction L₁ with
  | nil => exact absurd rfl h₁
  | cons l ls ih =>
    cases ls with
    | nil => simp [joinNl_cons l L₂ h₂]
    | cons m ms =>
      rw [List.cons_append, joinNl_cons l ((m :: ms) ++ L₂) (by simp),
        joinNl_cons l (m :: ms) (by simp), ih (by simp)]
      simp

theorem joinNl_splitlines (x : List Char) (hl : x.getLast? ≠ some '\n') :
    joinNl (splitlines x) = x := by
  induction x with
  | nil => rfl
  | cons c x ih =>
    cases x with
    | nil =>
      have hc : c ≠ '\n' := by simpa using hl
      simp [splitlines, hc]
    | cons d x' =>
      have hl' : (d :: x').getLast? ≠ some '\n' := by
        rwa [List.getLast?_cons_cons] at hl
      by_cases hc : c = '\n'
      · subst hc
        rw [splitlines_cons_nl,
          joinNl_cons _ _ (by rw [Ne, splitlines_eq_nil_iff]; simp), ih hl']
        rfl
      · rw [splitlines_cons_ne c hc]
        cases hh : splitlines (d :: x') with
        | nil => rw [splitlines_eq_nil_iff] at hh; exact absurd hh (by simp)
        | cons l ls =>
          have ihh : joinNl (l :: ls) = d :: x' := hh ▸ ih hl'
          cases ls with
          | nil =>
            simp only [joinNl_single] at ihh
            simp [ihh]
          | cons m ms =>
            rw [joinNl_cons _ _ (by simp)]
            rw [joinNl_cons _ _ (by simp)] at ihh
            rw [List.cons_append, ihh]

@[simp] theorem mapLast_nil (f : List Char → List Char) : mapLast f [] = [] := rfl

@[simp] theorem mapLast_single (f : List Char → List Char) (l : List Char) :
    mapLast f [l] = [f l] := rfl

theorem mapLast_cons (f : List Char → List Char) (l : List Char)
    (ls : List (List Char)) (h : ls ≠ []) :
    mapLast f (l :: ls) = l :: mapLast f ls := by
  cases ls with
  | nil => exact absurd rfl h
  | cons m ms => rfl

theorem mapLast_ne_nil (f : List Char → List Char) (L : List (List Char))
    (h : L ≠ []) : mapLast f L ≠ [] := by
  cases L with
  | nil => exact absurd rfl h
  | cons l ls => cases ls <;> simp [mapLast_cons]

theorem mem_mapLast (f : List Char → List Char) (L : List (List Char)) :
    ∀ l ∈ L, l ∈ mapLast f L ∨ f l ∈ mapLast f L := by
  induction L with
  | nil => intro l hl; simp at hl
  | cons m ms ih =>
    intro l hl
    cases ms with
    | nil =>
      simp only [List.mem_singleton] at hl
      subst hl
      right; simp
    | cons m₂ ms₂ =>
      rw [mapLast_cons f m (m₂ :: ms₂) (by simp)]
      rcases List.mem_cons.mp hl with rfl | hl
      · left; exact List.mem_cons_self _ _
      · rcases ih l hl with h | h
        · left; exact List.mem_cons_of_mem m h
        · right; exact List.mem_cons_of_mem m h

theorem mem_of_mem_splitlines (z l : List Char) (hl : l ∈ splitlines z) :
    ∀ c ∈ l, c ∈ z := by
  induction z generalizing l with
  | nil => simp at hl
  | cons a r ih =>
    by_cases ha : a = '\n'
    · subst ha
      rw [splitlines_cons_nl] at hl
      rcases List.mem_cons.mp hl with rfl | hl
      · intro c hc; simp at hc
      · intro c hc; exact List.mem_cons_of_mem _ (ih l hl c hc)
    · rw [splitlines_cons_ne a ha] at hl
      cases hr : splitlines r with
      | nil =>
        rw [hr] at hl
        simp only [List.mem_singleton] at hl
        subst hl
        intro c hc
        simp only [List.mem_singleton] at hc
        subst hc
        exact List.mem_cons_self _ _
      | cons m ms =>
        rw [hr] at hl
        rcases List.mem_cons.mp hl with rfl | hl
        · intro c hc
          rcases List.mem_cons.mp hc with rfl | hc
          · exact List.mem_cons_self _ _
          · exact List.mem_cons_of_mem _
              (ih m (hr ▸ List.mem_cons_self m ms) c hc)
        · intro c hc
          exact List.mem_cons_of_mem _
            (ih l (hr ▸ List.mem_cons_of_mem m hl) c hc)

theorem splitlines_cons_of_eq_nil (c : Char) (hc : c ≠ '\n') (r : List Char)
    (h : splitlines r = []) : splitlines (c :: r) = [[c]] := by
  rw [splitlines_cons_ne c hc, h]

theorem splitlines_cons_of_eq_cons (c : Char) (hc : c ≠ '\n') (r l : List Char)
    (ls : List (List Char)) (h : splitlines r = l :: ls) :
    splitlines (c :: r) = (c :: l) :: ls := by
  rw [splitlines_cons_ne c hc, h]

/-- Appending an all-whitespace tail to a non-empty text extends its last
line by some whitespace and adds only all-whitespace lines after it. -/
theorem splitlines_append_ws (w : List Char) (hw : ∀ c ∈ w, pyWs c = true) :
    ∀ y, y ≠ [] →
      ∃ w₀ extra, (∀ c ∈ w₀, pyWs c = true) ∧
        (∀ l ∈ extra, ∀ c ∈ l, pyWs c = true) ∧
        splitlines (y ++ w) = mapLast (· ++ w₀) (splitlines y) ++ extra := by
  intro y
  induction y with
  | nil => intro h; exact absurd rfl h
  | cons c y' ih =>
    intro _
    by_cases hc : c = '\n'
    · subst hc
      rw [List.cons_append, splitlines_cons_nl, splitlines_cons_nl]
      by_cases hy0 : y' = []
      · subst hy0
        refine ⟨[], splitlines w, by simp, ?_, by simp⟩
        intro l hl ch hch
        exact hw ch (mem_of_mem_splitlines w l hl ch hch)
      · obtain ⟨w₀, extra, hw₀, hextra, hsp⟩ := ih hy0
        refine ⟨w₀, extra, hw₀, hextra, ?_⟩
        rw [hsp, mapLast_cons _ _ _ (by rw [Ne, splitlines_eq_nil_iff]; exact hy0)]
        simp
    · by_cases hy0 : y' = []
      · subst hy0
        simp only [List.cons_append, List.nil_append]
        cases hsw : splitlines w with
        | nil =>
          refine ⟨[], [], by simp, by simp, ?_⟩
          rw [splitlines_cons_of_eq_nil c hc w hsw,
            splitlines_cons_of_eq_nil c hc [] rfl]
          simp
        | cons m ms =>
          refine ⟨m, ms, ?_, ?_, ?_⟩
          · intro ch hch
            exact hw ch (mem_of_mem_splitlines w m
              (hsw ▸ List.mem_cons_self m ms) ch hch)
          · intro l hl ch hch
            exact hw ch (mem_of_mem_splitlines w l
              (hsw ▸ List.mem_cons_of_mem m hl) ch hch)
          · rw [splitlines_cons_of_eq_cons c hc w m ms hsw,
              splitlines_cons_of_eq_nil c hc [] rfl]
            simp
      · obtain ⟨w₀, extra, hw₀, hextra, hsp⟩ := ih hy0
        refine ⟨w₀, extra, hw₀, hextra, ?_⟩
        have hy'ne : splitlines y' ≠ [] := by
          rw [Ne, splitlines_eq_nil_iff]; exact hy0
        cases hsy : splitlines y' with
        | nil => exact absurd hsy hy'ne
        | cons l ls =>
          cases ls with
          | nil =>
            rw [hsy] at hsp
            simp only [mapLast_single] at hsp
            rw [List.cons_append,
              splitlines_cons_of_eq_cons c hc (y' ++ w) (l ++ w₀) extra
                (by rw [hsp]; rfl),
              splitlines_cons_of_eq_cons c hc y' l [] hsy]
            simp
          | cons l₂ ls₂ =>
            rw [hsy] at hsp
            rw [mapLast_cons _ _ _ (by simp)] at hsp
            rw [List.cons_append,
              splitlines_cons_of_eq_cons c hc (y' ++ w) l
                (mapLast (· ++ w₀) (l₂ :: ls₂) ++ extra) (by rw [hsp]; rfl),
              splitlines_cons_of_eq_cons c hc y' l (l₂ :: ls₂) hsy,
              mapLast_cons _ (c :: l) (l₂ :: ls₂) (by simp)]
            simp

/-- Stripping trailing whitespace from a text preserves every property of
the stripped forms of its lines. -/
theorem splitlines_rstrip_strip (x : List Char) (Q : List Char → Prop)
    (hx : ∀ l ∈ splitlines x, Q (strip l)) :
    ∀ l ∈ splitlines (rstrip x), Q (strip l) := by
  obtain ⟨w, hw, hdec⟩ := rstrip_decomp x
  by_cases hr : rstrip x = []
  · rw [hr]; simp
  · obtain ⟨w₀, extra, hw₀, _, hsplit⟩ := splitlines_append_ws w hw (rstrip x) hr
    intro l hl
    rcases mem_mapLast (· ++ w₀) (splitlines (rstrip x)) l hl with h | h
    · exact hx l (by rw [hdec, hsplit]; exact List.mem_append_left _ h)
    · have hq := hx (l ++ w₀) (by rw [hdec, hsplit]; exact List.mem_append_left _ h)
      rwa [strip_append_ws w₀ hw₀ l] at hq

/-! ## Lemmas about the sentinel searches -/

theorem findSent_cons (l : List Char) (ls : List (List Char)) :
    findSent (l :: ls) =
      if strip l = sentinel then some 0 else (findSent ls).map (· + 1) := rfl

theorem findSent_eq_none_iff (ls : List (List Char)) :
    findSent ls = none ↔ ∀ l ∈ ls, strip l ≠ sentinel := by
  induction ls with
  | nil => simp [findSent]
  | cons m ms ih =>
    rw [findSent_cons]
    by_cases hm : strip m = sentinel
    · simp [hm]
    · simp only [if_neg hm]
      constructor
      · intro h l hl
        rcases List.mem_cons.mp hl with rfl | hl
        · exact hm
        · exact ih.mp (by simpa using h) l hl
      · intro h
        simp only [Option.map_eq_none']
        exact ih.mpr fun l hl => h l (List.mem_cons_of_mem m hl)

theorem findSent_append_sent (P : List (List Char))
    (hP : ∀ p ∈ P, strip p ≠ sentinel) (l : List Char)
    (hl : strip l = sentinel) (R : List (List Char)) :
    findSent (P ++ l :: R) = some P.length := by
  induction P with
  | nil => simp [findSent_cons, hl]
  | cons m ms ih =>
    rw [List.cons_append, findSent_cons,
      if_neg (hP m (List.mem_cons_self m ms)),
      ih fun p hp => hP p (List.mem_cons_of_mem m hp)]
    simp

theorem findSent_some (ls : List (List Char)) (i : Nat)
    (h : findSent ls = some i) :
    ∃ P l R, ls = P ++ l :: R ∧ P.length = i ∧
      (∀ p ∈ P, strip p ≠ sentinel) ∧ strip l = sentinel := by
  induction ls generalizing i with
  | nil => simp [findSent] at h
  | cons m ms ih =>
    rw [findSent_cons] at h
    by_cases hm : strip m = sentinel
    · rw [if_pos hm] at h
      simp only [Option.some.injEq] at h
      exact ⟨[], m, ms, by simp, by simp [← h], by simp, hm⟩
    · rw [if_neg hm] at h
      rcases Option.map_eq_some'.mp h with ⟨j, hj, rfl⟩
      obtain ⟨P, l, R, hls, hlen, hP, hsent⟩ := ih j hj
      refine ⟨m :: P, l, R, by simp [hls], by simp [hlen], ?_, hsent⟩
      intro p hp
      rcases List.mem_cons.mp hp with rfl | hp
      · exact hm
      · exact hP p hp

theorem findH1_cons (l : List Char) (ls : List (List Char)) :
    findH1 (l :: ls) =
      if startsH1 l then some 0 else (findH1 ls).map (· + 1) := rfl

theorem findH1_eq_none_iff (ls : List (List Char)) :
    findH1 ls = none ↔ ∀ l ∈ ls, startsH1 l = false := by
  induction ls with
  | nil => simp [findH1]
  | cons m ms ih =>
    rw [findH1_cons]
    by_cases hm : startsH1 m
    · simp [hm]
    · simp only [if_neg hm]
      constructor
      · intro h l hl
        rcases List.mem_cons.mp hl with rfl | hl
        · simpa using hm
        · exact ih.mp (by simpa using h) l hl
      · intro h
        simp only [Option.map_eq_none']
        exact ih.mpr fun l hl => h l (List.mem_cons_of_mem m hl)

theorem findH1_append_h1 (A : List (List Char))
    (hA : ∀ l ∈ A, startsH1 l = false) (l : List Char)
    (hl : startsH1 l = true) (R : List (List Char)) :
    findH1 (A ++ l :: R) = some A.length := by
  induction A with
  | nil => simp [findH1_cons, hl]
  | cons m ms ih =>
    rw [List.cons_append, findH1_cons,
      if_neg (by simp [hA m (List.mem_cons_self m ms)]),
      ih fun p hp => hA p (List.mem_cons_of_mem m hp)]
    simp

/-- A text that starts with `"# "` splits into lines whose first line
also starts with `"# "`. -/
theorem splitlines_startsH1 (x : List Char) (hx : startsH1 x = true) :
    ∃ l ls, splitlines x = l :: ls ∧ startsH1 l = true := by
  obtain ⟨r, rfl⟩ : ∃ r, x = '#' :: ' ' :: r := by
    cases x with
    | nil => simp [startsH1, List.isPrefixOf] at hx
    | cons a t =>
      cases t with
      | nil => simp [startsH1, List.isPrefixOf] at hx
      | cons b r =>
        simp only [startsH1, List.isPrefixOf, Bool.and_eq_true, beq_iff_eq] at hx
        exact ⟨r, by rw [← hx.1, ← hx.2.1]⟩
  have h2 : ∃ t ts, splitlines (' ' :: r) = (' ' :: t) :: ts := by
    rw [splitlines_cons_ne ' ' (by decide) r]
    cases hr : splitlines r with
    | nil => exact ⟨[], [], rfl⟩
    | cons m ms => exact ⟨m, ms, rfl⟩
  obtain ⟨t, ts, ht⟩ := h2
  rw [splitlines_cons_ne '#' (by decide), ht]
  exact ⟨'#' :: ' ' :: t, ts, rfl, by simp [startsH1, List.isPrefixOf]⟩

/-! ## Lemmas about the extractor -/

theorem skipBlank_decomp (ls : List (List Char)) :
    ∃ pre, ls = pre ++ skipBlank ls ∧ ∀ b ∈ pre, strip b = [] := by
  refine ⟨ls.takeWhile (fun l => (strip l).isEmpty), ?_, ?_⟩
  · exact (List.takeWhile_append_dropWhile _ ls).symm
  · intro b hb
    have := List.mem_takeWhile_imp hb
    simpa [List.isEmpty_iff] using this

theorem titleOf_some (line t : List Char) (h : titleOf line = some t) :
    ∃ c t2, lstrip line = '#' :: c :: t2 ∧ pyWs c = true ∧ t2 ≠ [] ∧
      t = strip t2 := by
  unfold titleOf at h
  cases hl : lstrip line with
  | nil => rw [hl] at h; exact absurd h (by simp)
  | cons a t1 =>
    cases t1 with
    | nil => rw [hl] at h; exact absurd h (by simp)
    | cons c t2 =>
      rw [hl] at h
      simp only [] at h
      by_cases hg : a = '#' ∧ pyWs c ∧ t2 ≠ []
      · rw [if_pos hg] at h
        simp only [Option.some.injEq] at h
        exact ⟨c, t2, by rw [← hg.1], by simpa using hg.2.1,
          hg.2.2, h.symm⟩
      · rw [if_neg hg] at h
        exact absurd h (by simp)

theorem parse_post_inv (text relpath : List Char) (r : Post)
    (h : parse_post text relpath = some r) :
    ∃ tline rest dline rest₂ title y m d,
      skipBlank (splitlines text) = tline :: rest ∧
      titleOf tline = some title ∧
      skipBlank rest = dline :: rest₂ ∧
      dateOf dline = some (y, m, d) ∧
      isValidDate y m d = true ∧
      r = ⟨title, y, m, d, relpath⟩ := by
  unfold parse_post at h
  cases h₁ : skipBlank (splitlines text) with
  | nil => rw [h₁] at h; exact absurd h (by simp)
  | cons tline rest =>
    rw [h₁] at h
    simp only [] at h
    cases h₂ : titleOf tline with
    | none => rw [h₂] at h; exact absurd h (by simp)
    | some title =>
      rw [h₂] at h
      simp only [] at h
      cases h₃ : skipBlank rest with
      | nil => rw [h₃] at h; exact absurd h (by simp)
      | cons dline rest₂ =>
        rw [h₃] at h
        simp only [] at h
        cases h₄ : dateOf dline with
        | none => rw [h₄] at h; exact absurd h (by simp)
        | some ymd =>
          obtain ⟨y, m, d⟩ := ymd
          rw [h₄] at h
          simp only [] at h
          by_cases h₅ : isValidDate y m d = true
          · rw [if_pos h₅] at h
            simp only [Option.some.injEq] at h
            exact ⟨tline, rest, dline, rest₂, title, y, m, d,
              rfl, h₂, h₃, h₄, h₅, h.symm⟩
          · rw [if_neg h₅] at h
            exact absurd h (by simp)

theorem getLast?_append_concat (x y : List Char) (c : Char) :
    (x ++ (y ++ [c])).getLast? = some c := by
  rw [← List.append_assoc, List.getLast?_concat]

theorem combined_ends_nl (B T A : List Char) :
    ((if B = [] then [] else B ++ ['\n', '\n']) ++ T ++ ['\n']
      ++ (if A = [] then [] else '\n' :: (rstrip A ++ ['\n']))).getLast? =
      some '\n' := by
  by_cases hA : A = []
  · rw [if_pos hA]
    have he : (if B = [] then [] else B ++ ['\n', '\n']) ++ T ++ ['\n'] ++ []
        = ((if B = [] then [] else B ++ ['\n', '\n']) ++ T) ++ ['\n'] := by simp
    rw [he, List.getLast?_concat]
  · rw [if_neg hA]
    have he : (if B = [] then [] else B ++ ['\n', '\n']) ++ T ++ ['\n']
          ++ '\n' :: (rstrip A ++ ['\n'])
        = ((if B = [] then [] else B ++ ['\n', '\n']) ++ T ++ ['\n']
          ++ '\n' :: rstrip A) ++ ['\n'] := by simp
    rw [he, List.getLast?_concat]

theorem spliceFound_ends_nl (lines : List (List Char)) (start : Nat)
    (S : List Char) : (spliceFound lines start S).getLast? = some '\n' := by
  unfold spliceFound
  exact combined_ends_nl _ _ _

/-! ## Claim theorems -/

/-- Claim C2, counterexample.  The claim says that on an empty existing
document the splicer returns exactly the trimmed section followed by one
newline, with nothing before it.  On the empty document the code takes the
append path `readme_text.rstrip() + "\n\n" + new_section.strip() + "\n"`,
which prepends two newline characters, so the output differs from the
claimed one. -/
theorem splice_empty_cex :
    replace_blog_section [] ("X".toList) ≠ strip ("X".toList) ++ ['\n'] := by
  decide

/-- Claim C2 (amended).  When the existing document is absent or empty, the
splicer returns two newline characters, then the new section trimmed of
surrounding whitespace, then a single trailing newline. -/
theorem splice_empty (S : List Char) :
    replace_blog_section [] S = '\n' :: '\n' :: (strip S ++ ['\n']) := rfl

/-- Claim C10.  For every pair of inputs, the document returned by the
splicer is non-empty and its last character is a newline. -/
theorem splice_ends_newline (D S : List Char) :
    replace_blog_section D S ≠ [] ∧
      (replace_blog_section D S).getLast? = some '\n' := by
  have h2 : (replace_blog_section D S).getLast? = some '\n' := by
    unfold replace_blog_section
    cases h : findSent (splitlines D) with
    | none =>
      have he : rstrip D ++ '\n' :: '\n' :: (strip S ++ ['\n'])
          = (rstrip D ++ '\n' :: '\n' :: strip S) ++ ['\n'] := by simp
      rw [he, List.getLast?_concat]
    | some start =>
      exact spliceFound_ends_nl _ _ _
  refine ⟨?_, h2⟩
  intro hnil
  rw [hnil] at h2
  exact absurd h2 (by simp)

/-- Claim C3, counterexample.  The claim says every record produced by the
extractor has a non-empty title.  On the file content `"#  \n**2024-01-01**"`
(a `#` followed by two spaces) the non-greedy group of `TITLE_RE`
backtracks onto a whitespace character, so `parse_post` produces a record
whose stripped title is empty. -/
theorem parse_post_empty_title_cex :
    parse_post ("#  \n**2024-01-01**".toList) ("p.md".toList) =
      some ⟨[], 2024, 1, 1, "p.md".toList⟩ := by
  decide

/-- Claim C3 (amended).  Every record's title is fully trimmed, and it is
empty exactly when the heading line consists of `#` and whitespace only
(that is, when the heading line strips to `#`); for any heading line with
a non-whitespace character after the marker the title is non-empty. -/
theorem parse_post_title_trimmed (text relpath : List Char) (r : Post)
    (h : parse_post text relpath = some r) :
    strip r.title = r.title ∧
      ∃ tline rest, skipBlank (splitlines text) = tline :: rest ∧
        (r.title = [] ↔ strip tline = ['#']) := by
  obtain ⟨tline, rest, dline, rest₂, title, y, m, d, h₁, h₂, h₃, h₄, h₅, hr⟩ :=
    parse_post_inv text relpath r h
  obtain ⟨c, t2, hl, hcw, ht2, hts⟩ := titleOf_some tline title h₂
  subst hr hts
  refine ⟨strip_idem t2, tline, rest, h₁, ?_⟩
  have hstrip : strip tline = rstrip ('#' :: c :: t2) := by
    unfold strip
    rw [hl]
  constructor
  · intro hnil
    rw [hstrip]
    have hall : ∀ ch ∈ c :: t2, pyWs ch = true := by
      intro ch hch
      rcases List.mem_cons.mp hch with rfl | hch
      · exact hcw
      · exact (strip_eq_nil_iff t2).mp hnil ch hch
    calc rstrip ('#' :: c :: t2) = rstrip (['#'] ++ (c :: t2)) := rfl
      _ = rstrip ['#'] := rstrip_append_ws (c :: t2) hall ['#']
      _ = ['#'] := by decide
  · intro hhash
    rw [hstrip] at hhash
    obtain ⟨w, hw, hdec⟩ := rstrip_decomp ('#' :: c :: t2)
    rw [hhash] at hdec
    have hct2 : c :: t2 = w := by simpa using hdec
    apply (strip_eq_nil_iff t2).mpr
    intro ch hch
    exact hw ch (hct2 ▸ List.mem_cons_of_mem c hch)

/-- Claim C3 witness. -/
theorem parse_post_title_trimmed_witness :
    parse_post ("# T\n**2024-01-01**".toList) ("a.md".toList) =
      some ⟨"T".toList, 2024, 1, 1, "a.md".toList⟩ ∧
    (strip ("T".toList) = "T".toList ∧
      ∃ tline rest,
        skipBlank (splitlines ("# T\n**2024-01-01**".toList)) = tline :: rest ∧
        (("T".toList : List Char) = [] ↔ strip tline = ['#'])) :=
  ⟨by decide, parse_post_title_trimmed ("# T\n**2024-01-01**".toList)
    ("a.md".toList) ⟨"T".toList, 2024, 1, 1, "a.md".toList⟩ (by decide)⟩

/-- Claim C4, counterexample.  The claim says the extractor yields a record
only if the first non-blank line matches `^#\s+(.+)$`, with no leading
whitespace before the `#`.  `TITLE_RE` actually begins with `^\s*`, so
the content `"  # Title\n**2024-01-05**"`, whose first non-blank line has
leading spaces and therefore fails the claimed shape, still yields a
record. -/
theorem parse_post_title_shape_cex :
    specTitleShape ("  # Title".toList) = false ∧
      parse_post ("  # Title\n**2024-01-05**".toList) ("q.md".toList) =
        some ⟨"Title".toList, 2024, 1, 5, "q.md".toList⟩ := by
  decide

/-- Claim C4 (amended).  The extractor yields a record only if the first
non-blank line, after dropping leading whitespace, is `#`, one whitespace
character, and at least one further character (the matching semantics of
`^\s*#\s+(.+?)\s*$`); leading whitespace before the `#` is tolerated. -/
theorem parse_post_title_shape (text relpath : List Char) (r : Post)
    (h : parse_post text relpath = some r) :
    ∃ pre tline rest, splitlines text = pre ++ tline :: rest ∧
      (∀ b ∈ pre, strip b = []) ∧
      ∃ c t2, lstrip tline = '#' :: c :: t2 ∧ pyWs c = true ∧ t2 ≠ [] := by
  obtain ⟨tline, rest, dline, rest₂, title, y, m, d, h₁, h₂, h₃, h₄, h₅, hr⟩ :=
    parse_post_inv text relpath r h
  obtain ⟨pre, hls, hpre⟩ := skipBlank_decomp (splitlines text)
  obtain ⟨c, t2, hl, hcw, ht2, _⟩ := titleOf_some tline title h₂
  exact ⟨pre, tline, rest, by rw [hls, h₁], hpre, c, t2, hl, hcw, ht2⟩

/-- Claim C4 witness. -/
theorem parse_post_title_shape_witness :
    parse_post ("# Ti\n**2024-01-02**".toList) ("b.md".toList) =
      some ⟨"Ti".toList, 2024, 1, 2, "b.md".toList⟩ ∧
    (∃ pre tline rest,
      splitlines ("# Ti\n**2024-01-02**".toList) = pre ++ tline :: rest ∧
      (∀ b ∈ pre, strip b = []) ∧
      ∃ c t2, lstrip tline = '#' :: c :: t2 ∧ pyWs c = true ∧ t2 ≠ []) :=
  ⟨by decide, parse_post_title_shape ("# Ti\n**2024-01-02**".toList)
    ("b.md".toList) ⟨"Ti".toList, 2024, 1, 2, "b.md".toList⟩ (by decide)⟩

/-- Claim C5, counterexample.  The claim says a date line with leading or
trailing whitespace makes the result absent.  `DATE_RE` begins with `^\s*`
and ends with `\s*$`, so the content `"# T5\n **2024-01-06** "`, whose
date line has surrounding spaces and fails the claimed exact shape, still
yields a record. -/
theorem parse_post_date_shape_cex :
    specDateShape (" **2024-01-06** ".toList) = false ∧
      parse_post ("# T5\n **2024-01-06** ".toList) ("r.md".toList) =
        some ⟨"T5".toList, 2024, 1, 6, "r.md".toList⟩ := by
  decide

/-- Claim C5 (amended).  With a valid title line, the extractor yields a
record only if the next non-blank line, after stripping surrounding
whitespace, is exactly the bold ISO date `**YYYY-MM-DD**` (the matching
semantics of `^\s*\*\*(\d{4}-\d{2}-\d{2})\*\*\s*$`), whose digits give
the record's date; surrounding whitespace on the line is tolerated. -/
theorem parse_post_date_shape (text relpath : List Char) (r : Post)
    (h : parse_post text relpath = some r) :
    ∃ pre tline mid dline rest,
      splitlines text = pre ++ tline :: (mid ++ dline :: rest) ∧
      (∀ b ∈ pre, strip b = []) ∧ (∀ b ∈ mid, strip b = []) ∧
      dateOf dline = some (r.year, r.month, r.day) := by
  obtain ⟨tline, rest, dline, rest₂, title, y, m, d, h₁, h₂, h₃, h₄, h₅, hr⟩ :=
    parse_post_inv text relpath r h
  obtain ⟨pre, hls, hpre⟩ := skipBlank_decomp (splitlines text)
  obtain ⟨mid, hm, hmid⟩ := skipBlank_decomp rest
  subst hr
  exact ⟨pre, tline, mid, dline, rest₂,
    by rw [hls, h₁, hm, h₃], hpre, hmid, h₄⟩

/-- Claim C5 witness. -/
theorem parse_post_date_shape_witness :
    parse_post ("# A\n\n**2024-03-04**".toList) ("c.md".toList) =
      some ⟨"A".toList, 2024, 3, 4, "c.md".toList⟩ ∧
    (∃ pre tline mid dline rest,
      splitlines ("# A\n\n**2024-03-04**".toList) =
        pre ++ tline :: (mid ++ dline :: rest) ∧
      (∀ b ∈ pre, strip b = []) ∧ (∀ b ∈ mid, strip b = []) ∧
      dateOf dline = some (2024, 3, 4)) :=
  ⟨by decide, parse_post_date_shape ("# A\n\n**2024-03-04**".toList)
    ("c.md".toList) ⟨"A".toList, 2024, 3, 4, "c.md".toList⟩ (by decide)⟩

/-- Claim C6.  Every record the extractor yields carries a valid calendar
date (month 1–12, day within the month's length, leap years handled,
year at least 1); contents with an invalid date — like month 13 or a
February 30 — therefore yield no record, and `parse_post` is a total
function into `Option`, so no input yields a half-built record or an
error. -/
theorem parse_post_valid_date (text relpath : List Char) (r : Post)
    (h : parse_post text relpath = some r) :
    isValidDate r.year r.month r.day = true := by
  obtain ⟨tline, rest, dline, rest₂, title, y, m, d, h₁, h₂, h₃, h₄, h₅, hr⟩ :=
    parse_post_inv text relpath r h
  subst hr
  exact h₅

/-- Claim C6 witness. -/
theorem parse_post_valid_date_witness :
    parse_post ("# B\n**2024-02-29**".toList) ("d.md".toList) =
      some ⟨"B".toList, 2024, 2, 29, "d.md".toList⟩ ∧
    isValidDate 2024 2 29 = true :=
  ⟨by decide, parse_post_valid_date ("# B\n**2024-02-29**".toList)
    ("d.md".toList) ⟨"B".toList, 2024, 2, 29, "d.md".toList⟩ (by decide)⟩

/-- Claim C8, counterexample.  The claim says the run fails whenever the
scan root does not exist *as a directory*.  The code only checks
`WIKI_DIR.exists()`, which is also true when `wiki` is a regular file; in
that case no `SystemExit` is raised, `rglob` yields no entries (and
raises nothing), and the run completes and writes output. -/
theorem main_root_file_cex :
    main ⟨RootKind.file, [], none⟩ =
      .ok (replace_blog_section [] (render_blog_section [])) := by
  have hc : collect_posts (walkFiles ⟨RootKind.file, [], none⟩) = [] := by
    simp [walkFiles, collect_posts]
  unfold main
  rw [if_neg (by simp)]
  rw [hc]
  rfl

/-- Claim C8 (amended).  Whenever the scan root does not exist at all, the
run fails with the MissingRoot condition before any scanning, and no
output is produced. -/
theorem main_missing_root (fs : Fs) (h : fs.rootKind = RootKind.missing) :
    main fs = .error RunErr.missingRoot := by
  unfold main
  rw [if_pos h]

/-- Claim C8 witness. -/
theorem main_missing_root_witness :
    main ⟨RootKind.missing, [("x.md".toList, "y".toList)], some ("z".toList)⟩ =
      .error RunErr.missingRoot :=
  main_missing_root _ rfl

/-! ## The collector's ordering (C7) -/

theorem strLe_cons (a b : Char) (s t : List Char) :
    strLe (a :: s) (b :: t) =
      if a.toNat = b.toNat then strLe s t else decide (a.toNat < b.toNat) := rfl

theorem strLe_total (x y : List Char) : strLe x y = true ∨ strLe y x = true := by
  induction x generalizing y with
  | nil => left; rfl
  | cons a s ih =>
    cases y with
    | nil => right; rfl
    | cons b t =>
      rw [strLe_cons, strLe_cons]
      by_cases hab : a.toNat = b.toNat
      · rw [if_pos hab, if_pos hab.symm]
        exact ih t
      · rw [if_neg hab, if_neg (fun h => hab h.symm)]
        simp only [decide_eq_true_eq]
        omega

theorem strLe_trans (x : List Char) :
    ∀ y z, strLe x y = true → strLe y z = true → strLe x z = true := by
  induction x with
  | nil => intro y z _ _; rfl
  | cons a s ih =>
    intro y z hxy hyz
    cases y with
    | nil => simp [strLe] at hxy
    | cons b t =>
      cases z with
      | nil => simp [strLe] at hyz
      | cons c u =>
        rw [strLe_cons] at hxy hyz ⊢
        by_cases h1 : a.toNat = b.toNat
        · rw [if_pos h1] at hxy
          by_cases h2 : b.toNat = c.toNat
          · rw [if_pos h2] at hyz
            rw [if_pos (h1.trans h2)]
            exact ih t u hxy hyz
          · rw [if_neg h2] at hyz
            simp only [decide_eq_true_eq] at hyz
            rw [if_neg (by omega)]
            simp only [decide_eq_true_eq]
            omega
        · rw [if_neg h1] at hxy
          simp only [decide_eq_true_eq] at hxy
          by_cases h2 : b.toNat = c.toNat
          · rw [if_neg (by omega)]
            simp only [decide_eq_true_eq]
            omega
          · rw [if_neg h2] at hyz
            simp only [decide_eq_true_eq] at hyz
            rw [if_neg (by omega)]
            simp only [decide_eq_true_eq]
            omega

theorem keyGeB_trans (a b c : Post) (h1 : keyGeB a b = true)
    (h2 : keyGeB b c = true) : keyGeB a c = true := by
  unfold keyGeB at h1 h2 ⊢
  simp only [Bool.or_eq_true, Bool.and_eq_true, decide_eq_true_eq] at h1 h2 ⊢
  rcases h1 with h1 | ⟨h1e, h1s⟩
  · rcases h2 with h2 | ⟨h2e, h2s⟩
    · left; omega
    · left; omega
  · rcases h2 with h2 | ⟨h2e, h2s⟩
    · left; omega
    · right
      exact ⟨by omega, strLe_trans _ _ _ h2s h1s⟩

theorem keyGeB_total (a b : Post) : (keyGeB a b || keyGeB b a) = true := by
  unfold keyGeB
  simp only [Bool.or_eq_true, Bool.and_eq_true, decide_eq_true_eq]
  rcases Nat.lt_trichotomy (dateNum a) (dateNum b) with h | h | h
  · right; left; exact h
  · rcases strLe_total a.relpath b.relpath with hs | hs
    · right; right; exact ⟨h.symm, hs⟩
    · left; right; exact ⟨h, hs⟩
  · left; left; exact h

/-- Chronological lexicographic order on the (year, month, day)
components. -/
def dateLexLt (b a : Post) : Prop :=
  b.year < a.year ∨ (b.year = a.year ∧
    (b.month < a.month ∨ (b.month = a.month ∧ b.day < a.day)))

theorem daysInMonth_le (y m : Nat) : daysInMonth y m ≤ 31 := by
  unfold daysInMonth
  by_cases h2 : m = 2
  · rw [if_pos h2]
    cases isLeap y <;> simp
  · rw [if_neg h2]
    by_cases h30 : (m = 4 || m = 6 || m = 9 || m = 11) = true
    · rw [if_pos h30]; omega
    · rw [if_neg h30]

theorem isValidDate_bounds (y m d : Nat) (h : isValidDate y m d = true) :
    m ≤ 12 ∧ d ≤ 31 := by
  unfold isValidDate at h
  simp only [Bool.and_eq_true, decide_eq_true_eq] at h
  obtain ⟨⟨⟨⟨_, _⟩, hm⟩, _⟩, hd⟩ := h
  exact ⟨hm, le_trans hd (daysInMonth_le y m)⟩

theorem keyGeB_imp_lex (a b : Post) (hma : a.month ≤ 12) (hda : a.day ≤ 31)
    (hmb : b.month ≤ 12) (hdb : b.day ≤ 31) (h : keyGeB a b = true) :
    dateLexLt b a ∨ ((b.year, b.month, b.day) = (a.year, a.month, a.day) ∧
      strLe b.relpath a.relpath = true) := by
  unfold keyGeB at h
  simp only [Bool.or_eq_true, Bool.and_eq_true, decide_eq_true_eq] at h
  unfold dateNum at h
  rcases h with h | ⟨he, hs⟩
  · left; unfold dateLexLt; omega
  · right
    refine ⟨?_, hs⟩
    have hc : b.year = a.year ∧ b.month = a.month ∧ b.day = a.day := by omega
    simp [hc.1, hc.2.1, hc.2.2]

theorem collect_posts_mem_bounds (files : List (List Char × List Char))
    (p : Post) (hp : p ∈ collect_posts files) : p.month ≤ 12 ∧ p.day ≤ 31 := by
  unfold collect_posts at hp
  have hmem : p ∈ (files.filter (fun f => endsMd f.1)).filterMap
      (fun f => parse_post f.2 f.1) :=
    (List.mergeSort_perm _ keyGeB).mem_iff.mp hp
  obtain ⟨f, _, hpf⟩ := List.mem_filterMap.mp hmem
  obtain ⟨_, _, _, _, _, y, m, d, _, _, _, _, h₅, hr⟩ :=
    parse_post_inv f.2 f.1 p hpf
  subst hr
  exact isValidDate_bounds y m d h₅

/-- Claim C7.  For every walked file set, the sequence `collect_posts`
returns is sorted by publish date descending, with ties on equal dates
broken by the relative path descending (`sort(key=(date, relpath),
reverse=True)`). -/
theorem collect_posts_sorted (files : List (List Char × List Char)) :
    (collect_posts files).Pairwise (fun a b =>
      dateLexLt b a ∨ ((b.year, b.month, b.day) = (a.year, a.month, a.day) ∧
        strLe b.relpath a.relpath = true)) := by
  have hs : (collect_posts files).Pairwise (fun a b => keyGeB a b = true) := by
    unfold collect_posts
    exact List.sorted_mergeSort (fun a b c => keyGeB_trans a b c) keyGeB_total _
  apply List.Pairwise.imp_of_mem ?_ hs
  intro a b ha hb hab
  obtain ⟨hma, hda⟩ := collect_posts_mem_bounds files a ha
  obtain ⟨hmb, hdb⟩ := collect_posts_mem_bounds files b hb
  exact keyGeB_imp_lex a b hma hda hmb hdb hab

/-! ## The link renderer (C9) -/

theorem joinSlash_nil : joinSlash [] = [] := by
  simp [joinSlash, List.intercalate]

theorem joinSlash_single (x : List Char) : joinSlash [x] = x := by
  simp [joinSlash, List.intercalate]

theorem joinSlash_cons₂ (x y : List Char) (r : List (List Char)) :
    joinSlash (x :: y :: r) = x ++ '/' :: joinSlash (y :: r) := by
  simp [joinSlash, List.intercalate, List.intersperse]

theorem joinSlash_append_single (A : List (List Char)) (x : List Char) :
    joinSlash (A ++ [x]) = if A = [] then x else joinSlash A ++ '/' :: x := by
  induction A with
  | nil => simp [joinSlash_single]
  | cons a B ih =>
    cases B with
    | nil => simp [joinSlash_cons₂, joinSlash_single]
    | cons b C =>
      simp only [List.cons_append]
      rw [joinSlash_cons₂]
      have ih' : joinSlash (b :: (C ++ [x])) = joinSlash (b :: C) ++ '/' :: x := by
        have h0 := ih
        rw [List.cons_append] at h0
        rw [h0, if_neg (by simp)]
      rw [ih', if_neg (by simp), joinSlash_cons₂]
      simp

theorem splitOn_joinSlash (segs : List (List Char)) (hne : segs ≠ [])
    (hseg : ∀ s ∈ segs, '/' ∉ s) : (joinSlash segs).splitOn '/' = segs :=
  List.splitOn_intercalate segs '/' hseg hne

theorem pathName_join (A : List (List Char)) (nm : List Char)
    (hseg : ∀ s ∈ A ++ [nm], '/' ∉ s) :
    pathName (joinSlash (A ++ [nm])) = nm := by
  unfold pathName
  rw [splitOn_joinSlash _ (by simp) hseg, List.getLastD_concat]

theorem parentPosix_join (A : List (List Char)) (nm : List Char)
    (hseg : ∀ s ∈ A ++ [nm], '/' ∉ s) :
    parentPosix (joinSlash (A ++ [nm])) =
      if A = [] then ".".toList else joinSlash A := by
  unfold parentPosix
  rw [splitOn_joinSlash _ (by simp) hseg, List.dropLast_concat]
  by_cases hA : A = []
  · rw [if_pos hA, if_pos (by simp [hA])]
  · rw [if_neg hA, if_neg]
    simp only [List.length_append, List.length_singleton]
    have : A.length ≠ 0 := fun h => hA (List.eq_nil_of_length_eq_zero h)
    omega

theorem joinSlash_ne_dot (A : List (List Char)) (hA : A ≠ [])
    (hseg : ∀ s ∈ A, s ≠ [] ∧ s ≠ ".".toList) : joinSlash A ≠ ".".toList := by
  cases A with
  | nil => exact absurd rfl hA
  | cons a B =>
    cases B with
    | nil => rw [joinSlash_single]; exact (hseg a (by simp)).2
    | cons b C =>
      rw [joinSlash_cons₂]
      intro hcon
      cases ha : a with
      | nil => exact absurd ha (hseg a (by simp)).1
      | cons c a' =>
        rw [ha, List.cons_append] at hcon
        have h2 := (List.cons_eq_cons.mp hcon).2
        exact absurd (List.append_eq_nil.mp h2).2 (by simp)

theorem suffixOf_md (nm : List Char) (h : lowerStr (suffixOf nm) = ".md".toList) :
    ∃ i, rfindDot nm = some i ∧ 0 < i ∧ i < nm.length - 1 ∧ nm.length = i + 3 ∧
      stemOf nm = nm.take i := by
  unfold suffixOf at h
  cases hfd : rfindDot nm with
  | none => rw [hfd] at h; simp [lowerStr] at h
  | some i =>
    rw [hfd] at h
    have h' : lowerStr (if 0 < i ∧ i < nm.length - 1 then nm.drop i else [])
        = ".md".toList := h
    by_cases hc : 0 < i ∧ i < nm.length - 1
    · rw [if_pos hc] at h'
      have hlen : (nm.drop i).length = 3 := by
        have hmap := congrArg List.length h'
        simpa [lowerStr] using hmap
      rw [List.length_drop] at hlen
      refine ⟨i, rfl, hc.1, hc.2, by omega, ?_⟩
      unfold stemOf
      rw [hfd]
      show (if 0 < i ∧ i < nm.length - 1 then nm.take i else nm) = nm.take i
      rw [if_pos hc]
    · rw [if_neg hc] at h'; simp [lowerStr] at h'

/-- Claim C9.  The three-case contract of `to_blog_link`, for a well-formed
relative posix path given by its segments (each non-empty, slash-free,
and not the special `.` segment): a root `README.md` (case-insensitive)
maps to the base URL alone; a nested `README.md` maps to the base URL
plus the parent path; any other name with a (case-insensitive) `.md`
suffix maps to the base URL plus the path without its three-character
extension. -/
theorem to_blog_link_spec (segs : List (List Char)) (hne : segs ≠ [])
    (hseg : ∀ s ∈ segs, s ≠ [] ∧ '/' ∉ s ∧ s ≠ ".".toList) :
    (lowerStr (segs.getLastD []) = "readme.md".toList →
      to_blog_link (joinSlash segs) =
        if segs.length = 1 then BASE_URL
        else BASE_URL ++ '/' :: joinSlash segs.dropLast) ∧
    (lowerStr (segs.getLastD []) ≠ "readme.md".toList →
      lowerStr (pathSuffix (joinSlash segs)) = ".md".toList →
      to_blog_link (joinSlash segs) =
        BASE_URL ++ '/' :: (joinSlash segs).take ((joinSlash segs).length - 3)) := by
  rcases List.eq_nil_or_concat segs with rfl | ⟨A, nm, rfl⟩
  · exact absurd rfl hne
  rw [List.concat_eq_append] at *
  have hsl : ∀ s ∈ A ++ [nm], '/' ∉ s := fun s hs => (hseg s hs).2.1
  rw [List.getLastD_concat]
  constructor
  · intro hread
    unfold to_blog_link
    rw [pathName_join A nm hsl, if_pos hread, parentPosix_join A nm hsl]
    by_cases hA : A = []
    · rw [if_pos hA, if_pos rfl, if_pos (by simp [hA])]
    · rw [if_neg hA,
        if_neg (joinSlash_ne_dot A hA
          (fun s hs => ⟨(hseg s (List.mem_append_left _ hs)).1,
            (hseg s (List.mem_append_left _ hs)).2.2⟩)),
        if_neg (by
          simp only [List.length_append, List.length_singleton]
          have : A.length ≠ 0 := fun h => hA (List.eq_nil_of_length_eq_zero h)
          omega),
        List.dropLast_concat]
  · intro hnread hsuf
    unfold to_blog_link
    rw [pathName_join A nm hsl, if_neg hnread, if_pos hsuf]
    unfold pathSuffix at hsuf
    rw [pathName_join A nm hsl] at hsuf
    obtain ⟨i, hfd, hi0, hi1, hlen, hstem⟩ := suffixOf_md nm hsuf
    unfold withNoSuffix
    rw [pathName_join A nm hsl, splitOn_joinSlash _ (by simp) hsl,
      List.dropLast_concat, hstem]
    rw [joinSlash_append_single A (nm.take i), joinSlash_append_single A nm]
    by_cases hA : A = []
    · rw [if_pos hA, if_pos hA]
      have h3 : nm.length - 3 = i := by omega
      rw [h3]
    · rw [if_neg hA, if_neg hA]
      have hx : joinSlash A ++ '/' :: nm = (joinSlash A ++ ['/']) ++ nm := by
        simp
      have hlen2 : ((joinSlash A ++ ['/']) ++ nm).length - 3
          = (joinSlash A ++ ['/']).length + i := by
        simp only [List.length_append, List.length_singleton]
        omega
      rw [hx, hlen2, List.take_append]
      simp

/-- Claim C9 witness: the three examples named by the specification. -/
theorem to_blog_link_spec_witness :
    to_blog_link ("self/places/README.md".toList) =
      BASE_URL ++ '/' :: "self/places".toList ∧
    to_blog_link ("README.md".toList) = BASE_URL ∧
    to_blog_link ("self/travel.md".toList) =
      BASE_URL ++ '/' :: "self/travel".toList := by
  refine ⟨?_, ?_, ?_⟩
  · have h := (to_blog_link_spec
      ["self".toList, "places".toList, "README.md".toList]
      (by decide) (by decide)).1 (by decide)
    rw [show joinSlash ["self".toList, "places".toList, "README.md".toList]
        = "self/places/README.md".toList from by decide] at h
    rw [if_neg (by decide)] at h
    rw [show joinSlash (["self".toList, "places".toList,
        "README.md".toList].dropLast) = "self/places".toList from by decide] at h
    exact h
  · have h := (to_blog_link_spec ["README.md".toList]
      (by decide) (by decide)).1 (by decide)
    rw [show joinSlash ["README.md".toList] = "README.md".toList
        from by decide] at h
    rw [if_pos (by decide)] at h
    exact h
  · have h := (to_blog_link_spec ["self".toList, "travel.md".toList]
      (by decide) (by decide)).2 (by decide) (by decide)
    rw [show joinSlash ["self".toList, "travel.md".toList]
        = "self/travel.md".toList from by decide] at h
    rw [show ("self/travel.md".toList).take
        (("self/travel.md".toList).length - 3) = "self/travel".toList
        from by decide] at h
    exact h

/-! ## Splice idempotence (C1): supporting lemmas -/

theorem findH1_some (ls : List (List Char)) (k : Nat) (h : findH1 ls = some k) :
    ∃ A l R, ls = A ++ l :: R ∧ A.length = k ∧
      (∀ p ∈ A, startsH1 p = false) ∧ startsH1 l = true := by
  induction ls generalizing k with
  | nil => simp [findH1] at h
  | cons m ms ih =>
    rw [findH1_cons] at h
    by_cases hm : startsH1 m
    · rw [if_pos hm] at h
      simp only [Option.some.injEq] at h
      exact ⟨[], m, ms, by simp, by simp [← h], by simp, hm⟩
    · rw [if_neg hm] at h
      rcases Option.map_eq_some'.mp h with ⟨j, hj, rfl⟩
      obtain ⟨A, l, R, hls, hlen, hA, hsh⟩ := ih j hj
      refine ⟨m :: A, l, R, by simp [hls], by simp [hlen], ?_, hsh⟩
      intro p hp
      rcases List.mem_cons.mp hp with rfl | hp
      · simpa using hm
      · exact hA p hp

theorem nl_not_mem_splitlines (z : List Char) :
    ∀ l ∈ splitlines z, '\n' ∉ l := by
  induction z with
  | nil => simp
  | cons a r ih =>
    by_cases ha : a = '\n'
    · subst ha
      rw [splitlines_cons_nl]
      intro l hl
      rcases List.mem_cons.mp hl with rfl | hl
      · simp
      · exact ih l hl
    · rw [splitlines_cons_ne a ha]
      cases hr : splitlines r with
      | nil =>
        intro l hl
        simp only [List.mem_singleton] at hl
        subst hl
        simpa using fun h => ha h.symm
      | cons m ms =>
        intro l hl
        rcases List.mem_cons.mp hl with rfl | hl
        · intro hmem
          rcases List.mem_cons.mp hmem with h | h
          · exact ha h.symm
          · exact ih m (hr ▸ List.mem_cons_self m ms) h
        · exact ih l (hr ▸ List.mem_cons_of_mem m hl)

theorem splitlines_no_nl (x : List Char) (hx : '\n' ∉ x) :
    splitlines x = if x = [] then [] else [x] := by
  induction x with
  | nil => simp
  | cons c r ih =>
    have hc : c ≠ '\n' := fun h => hx (h ▸ List.mem_cons_self c r)
    have hr : '\n' ∉ r := fun h => hx (List.mem_cons_of_mem c h)
    rw [splitlines_cons_ne c hc, ih hr]
    by_cases h0 : r = []
    · subst h0; simp
    · rw [if_neg h0, if_neg (by simp)]

theorem mem_of_getLast?_eq (x : List Char) (c : Char)
    (h : x.getLast? = some c) : c ∈ x := by
  induction x with
  | nil => simp at h
  | cons a t ih =>
    cases t with
    | nil =>
      simp only [List.getLast?_singleton, Option.some.injEq] at h
      simp [h]
    | cons b u =>
      rw [List.getLast?_cons_cons] at h
      exact List.mem_cons_of_mem a (ih h)

theorem mem_splitlines_joinNl (P : List (List Char))
    (hP : ∀ l ∈ P, '\n' ∉ l) : ∀ l ∈ splitlines (joinNl P), l ∈ P := by
  induction P with
  | nil => simp
  | cons x Q ih =>
    cases Q with
    | nil =>
      rw [joinNl_single, splitlines_no_nl x (hP x (by simp))]
      by_cases h0 : x = []
      · simp [h0]
      · rw [if_neg h0]
        intro l hl
        simp only [List.mem_singleton] at hl
        simp [hl]
    | cons y Q' =>
      rw [joinNl_cons x (y :: Q') (by simp), splitlines_append_nl_cons]
      intro l hl
      rcases List.mem_append.mp hl with hl | hl
      · by_cases h0 : x = []
        · subst h0
          simp only [List.nil_append] at hl
          rw [splitlines_cons_nl, splitlines_nil] at hl
          simp only [List.mem_singleton] at hl
          simp [hl]
        · rw [splitlines_append_nl x h0
            (fun hc => hP x (by simp) (mem_of_getLast?_eq x '\n' hc)),
            splitlines_no_nl x (hP x (by simp)), if_neg h0] at hl
          simp only [List.mem_singleton] at hl
          simp [hl]
      · exact List.mem_cons_of_mem x
          (ih (fun m hm => hP m (List.mem_cons_of_mem x hm)) l hl)

theorem startsH1_iff (x : List Char) :
    startsH1 x = true ↔ ∃ r, x = '#' :: ' ' :: r := by
  constructor
  · intro hx
    cases x with
    | nil => simp [startsH1, List.isPrefixOf] at hx
    | cons a t =>
      cases t with
      | nil => simp [startsH1, List.isPrefixOf] at hx
      | cons b r =>
        simp only [startsH1, List.isPrefixOf, Bool.and_eq_true, beq_iff_eq] at hx
        exact ⟨r, by rw [← hx.1, ← hx.2.1]⟩
  · rintro ⟨r, rfl⟩
    simp [startsH1, List.isPrefixOf]

theorem lstrip_of_startsH1 (x : List Char) (hx : startsH1 x = true) :
    lstrip x = x := by
  obtain ⟨r, rfl⟩ := (startsH1_iff x).mp hx
  rw [lstrip_cons, if_neg (by decide)]

theorem startsH1_append (x z : List Char) (hx : startsH1 x = true) :
    startsH1 (x ++ z) = true := by
  obtain ⟨r, rfl⟩ := (startsH1_iff x).mp hx
  exact (startsH1_iff _).mpr ⟨r ++ z, by simp⟩

/-- Taking `rstrip` of a `"# "`-headed text is either the bare `#` (when all the
rest is whitespace) or again `"# "`-headed. -/
theorem rstrip_startsH1 (x : List Char) (hx : startsH1 x = true) :
    rstrip x = ['#'] ∨ startsH1 (rstrip x) = true := by
  obtain ⟨r, rfl⟩ := (startsH1_iff x).mp hx
  rw [rstrip_cons]
  cases h1 : rstrip (' ' :: r) with
  | nil => left; rw [if_neg (by decide)]
  | cons d l =>
    right
    rw [rstrip_cons] at h1
    cases h2 : rstrip r with
    | nil =>
      rw [h2] at h1
      rw [if_pos (by decide)] at h1
      exact absurd h1.symm (by simp)
    | cons d' l' =>
      rw [h2] at h1
      simp only [List.cons.injEq] at h1
      obtain ⟨hd, -⟩ := h1
      subst hd
      exact (startsH1_iff _).mpr ⟨l, rfl⟩

/-- Splicing `S` into a document that is already in the canonical spliced
shape — an `rstrip`ped sentinel-free `before` block, the trimmed
sentinel-led section, and optionally an `rstrip`ped `"# "`-headed `after`
block — reproduces that document byte for byte. -/
theorem splice_canonical (S B Ar : List Char) (R : List (List Char))
    (hhead : splitlines (strip S) = sentinel :: R)
    (hR : ∀ l ∈ R, startsH1 l = false)
    (hBr : rstrip B = B)
    (hBclean : ∀ l ∈ splitlines B, strip l ≠ sentinel)
    (hAr : Ar = [] ∨ (rstrip Ar = Ar ∧ startsH1 Ar = true)) :
    replace_blog_section
      ((if B = [] then [] else B ++ ['\n', '\n']) ++ strip S ++ ['\n']
        ++ (if Ar = [] then [] else '\n' :: (Ar ++ ['\n']))) S
    = (if B = [] then [] else B ++ ['\n', '\n']) ++ strip S ++ ['\n']
        ++ (if Ar = [] then [] else '\n' :: (Ar ++ ['\n'])) := by
  have hTne : strip S ≠ [] := by
    intro h; rw [h] at hhead; exact absurd hhead (by simp)
  have hTlast : (strip S).getLast? ≠ some '\n' := by
    intro h
    exact absurd (rstrip_getLast?_not_ws (lstrip S) '\n' h) (by decide)
  have hTnl : splitlines (strip S ++ ['\n']) = sentinel :: R := by
    rw [splitlines_append_nl (strip S) hTne hTlast, hhead]
  have hsent : strip sentinel = sentinel := by decide
  have hemp : strip ([] : List Char) ≠ sentinel := by decide
  by_cases hB : B = []
  · by_cases hA : Ar = []
    · rw [if_pos hB, if_pos hA]
      simp only [List.nil_append, List.append_nil]
      unfold replace_blog_section
      rw [hTnl]
      have hfs : findSent (sentinel :: R) = some 0 := by
        rw [findSent_cons, if_pos hsent]
      rw [hfs]
      show spliceFound (sentinel :: R) 0 S = strip S ++ ['\n']
      have hend : spliceEnd (sentinel :: R) 0 = (sentinel :: R).length := by
        unfold spliceEnd
        rw [show (sentinel :: R).drop (0 + 1) = R from rfl,
          (findH1_eq_none_iff R).mpr hR]
      have hafter : spliceAfter (sentinel :: R) 0 = [] := by
        unfold spliceAfter
        rw [hend, List.drop_length]
        rfl
      have hbefore : spliceBefore (sentinel :: R) 0 = [] := rfl
      unfold spliceFound
      rw [hbefore, hafter, if_pos rfl, if_pos rfl]
      simp
    · obtain ⟨hArr, hArH1⟩ := hAr.resolve_left hA
      have hArlast : Ar.getLast? ≠ some '\n' := by
        intro h
        exact absurd (rstrip_getLast?_not_ws Ar '\n' (by rw [hArr]; exact h))
          (by decide)
      obtain ⟨lA, lsA, hsplitAr, hlAH1⟩ := splitlines_startsH1 Ar hArH1
      rw [if_pos hB, if_neg hA]
      simp only [List.nil_append]
      have hEO : strip S ++ ['\n'] ++ '\n' :: (Ar ++ ['\n'])
          = strip S ++ '\n' :: ('\n' :: (Ar ++ ['\n'])) := by simp
      rw [hEO]
      have hlines : splitlines (strip S ++ '\n' :: ('\n' :: (Ar ++ ['\n'])))
          = sentinel :: (R ++ [] :: lA :: lsA) := by
        rw [splitlines_append_nl_cons, hTnl, splitlines_cons_nl,
          splitlines_append_nl Ar hA hArlast, hsplitAr]
        simp
      unfold replace_blog_section
      rw [hlines]
      have hfs : findSent (sentinel :: (R ++ [] :: lA :: lsA)) = some 0 := by
        rw [findSent_cons, if_pos hsent]
      rw [hfs]
      show spliceFound (sentinel :: (R ++ [] :: lA :: lsA)) 0 S
          = strip S ++ '\n' :: ('\n' :: (Ar ++ ['\n']))
      have hQclean : ∀ p ∈ R ++ [[]], startsH1 p = false := by
        intro p hp
        rcases List.mem_append.mp hp with hp | hp
        · exact hR p hp
        · simp only [List.mem_singleton] at hp; subst hp; decide
      have hend : spliceEnd (sentinel :: (R ++ [] :: lA :: lsA)) 0
          = R.length + 2 := by
        unfold spliceEnd
        rw [show (sentinel :: (R ++ [] :: lA :: lsA)).drop (0 + 1)
            = (R ++ [[]]) ++ lA :: lsA from by simp,
          findH1_append_h1 (R ++ [[]]) hQclean lA hlAH1 lsA]
        show 0 + 1 + (R ++ [[]]).length = R.length + 2
        simp only [List.length_append, List.length_singleton]
        omega
      have hafter : spliceAfter (sentinel :: (R ++ [] :: lA :: lsA)) 0 = Ar := by
        unfold spliceAfter
        rw [hend,
          show (sentinel :: (R ++ [] :: lA :: lsA))
            = (sentinel :: (R ++ [[]])) ++ lA :: lsA from by simp,
          List.drop_left' (by simp only [List.length_cons, List.length_append,
            List.length_singleton, List.length_nil]),
          ← hsplitAr, joinNl_splitlines Ar hArlast, lstrip_of_startsH1 Ar hArH1]
      have hbefore : spliceBefore (sentinel :: (R ++ [] :: lA :: lsA)) 0 = [] := rfl
      unfold spliceFound
      rw [hbefore, hafter, if_pos rfl, if_neg hA, hArr]
      simp
  · have hBne' : splitlines B ≠ [] := by
      rw [Ne, splitlines_eq_nil_iff]; exact hB
    have hBlast : B.getLast? ≠ some '\n' := by
      intro h
      exact absurd (rstrip_getLast?_not_ws B '\n' (by rw [hBr]; exact h))
        (by decide)
    have hPclean : ∀ p ∈ splitlines B ++ [[]], strip p ≠ sentinel := by
      intro p hp
      rcases List.mem_append.mp hp with hp | hp
      · exact hBclean p hp
      · simp only [List.mem_singleton] at hp; subst hp; exact hemp
    have hjoinP : joinNl (splitlines B ++ [[]]) = B ++ ['\n'] := by
      rw [joinNl_append (splitlines B) [[]] hBne' (by simp),
        joinNl_splitlines B hBlast]
      rfl
    have hbeforeB : rstrip (joinNl (splitlines B ++ [[]])) = B := by
      rw [hjoinP, rstrip_append_ws ['\n'] (by decide) B, hBr]
    by_cases hA : Ar = []
    · rw [if_neg hB, if_pos hA]
      simp only [List.append_nil]
      have hEO : (B ++ ['\n', '\n']) ++ strip S ++ ['\n']
          = B ++ '\n' :: ('\n' :: (strip S ++ ['\n'])) := by simp
      rw [hEO]
      have hlines : splitlines (B ++ '\n' :: ('\n' :: (strip S ++ ['\n'])))
          = (splitlines B ++ [[]]) ++ sentinel :: R := by
        rw [splitlines_append_nl_cons, splitlines_append_nl B hB hBlast,
          splitlines_cons_nl, hTnl]
        simp
      unfold replace_blog_section
      rw [hlines,
        findSent_append_sent (splitlines B ++ [[]]) hPclean sentinel hsent R]
      show spliceFound ((splitlines B ++ [[]]) ++ sentinel :: R)
          (splitlines B ++ [[]]).length S
          = B ++ '\n' :: ('\n' :: (strip S ++ ['\n']))
      have hdrop : ((splitlines B ++ [[]]) ++ sentinel :: R).drop
          ((splitlines B ++ [[]]).length + 1) = R := by
        rw [show (splitlines B ++ [[]]) ++ sentinel :: R
            = ((splitlines B ++ [[]]) ++ [sentinel]) ++ R from by simp]
        exact List.drop_left' (by simp)
      have hend : spliceEnd ((splitlines B ++ [[]]) ++ sentinel :: R)
          (splitlines B ++ [[]]).length
          = ((splitlines B ++ [[]]) ++ sentinel :: R).length := by
        unfold spliceEnd
        rw [hdrop, (findH1_eq_none_iff R).mpr hR]
      have hafter : spliceAfter ((splitlines B ++ [[]]) ++ sentinel :: R)
          (splitlines B ++ [[]]).length = [] := by
        unfold spliceAfter
        rw [hend, List.drop_length]
        rfl
      have hbefore : spliceBefore ((splitlines B ++ [[]]) ++ sentinel :: R)
          (splitlines B ++ [[]]).length = B := by
        unfold spliceBefore
        rw [List.take_left]
        exact hbeforeB
      unfold spliceFound
      rw [hbefore, hafter, if_neg hB, if_pos rfl]
      simp
    · obtain ⟨hArr, hArH1⟩ := hAr.resolve_left hA
      have hArlast : Ar.getLast? ≠ some '\n' := by
        intro h
        exact absurd (rstrip_getLast?_not_ws Ar '\n' (by rw [hArr]; exact h))
          (by decide)
      obtain ⟨lA, lsA, hsplitAr, hlAH1⟩ := splitlines_startsH1 Ar hArH1
      rw [if_neg hB, if_neg hA]
      have hEO : (B ++ ['\n', '\n']) ++ strip S ++ ['\n']
            ++ '\n' :: (Ar ++ ['\n'])
          = B ++ '\n' :: ('\n' :: (strip S ++ '\n' :: ('\n' :: (Ar ++ ['\n'])))) := by
        simp
      rw [hEO]
      have hlines : splitlines
            (B ++ '\n' :: ('\n' :: (strip S ++ '\n' :: ('\n' :: (Ar ++ ['\n'])))))
          = (splitlines B ++ [[]]) ++ sentinel :: (R ++ [] :: lA :: lsA) := by
        rw [splitlines_append_nl_cons, splitlines_append_nl B hB hBlast,
          splitlines_cons_nl, splitlines_append_nl_cons, hTnl,
          splitlines_cons_nl, splitlines_append_nl Ar hA hArlast, hsplitAr]
        simp
      unfold replace_blog_section
      rw [hlines,
        findSent_append_sent (splitlines B ++ [[]]) hPclean sentinel hsent
          (R ++ [] :: lA :: lsA)]
      show spliceFound
            ((splitlines B ++ [[]]) ++ sentinel :: (R ++ [] :: lA :: lsA))
            (splitlines B ++ [[]]).length S
          = B ++ '\n' :: ('\n' :: (strip S ++ '\n' :: ('\n' :: (Ar ++ ['\n']))))
      have hQclean : ∀ p ∈ R ++ [[]], startsH1 p = false := by
        intro p hp
        rcases List.mem_append.mp hp with hp | hp
        · exact hR p hp
        · simp only [List.mem_singleton] at hp; subst hp; decide
      have hdrop : ((splitlines B ++ [[]]) ++ sentinel :: (R ++ [] :: lA :: lsA)).drop
          ((splitlines B ++ [[]]).length + 1) = (R ++ [[]]) ++ lA :: lsA := by
        rw [show (splitlines B ++ [[]]) ++ sentinel :: (R ++ [] :: lA :: lsA)
            = ((splitlines B ++ [[]]) ++ [sentinel]) ++ ((R ++ [[]]) ++ lA :: lsA)
            from by simp]
        exact List.drop_left' (by simp)
      have hend : spliceEnd
            ((splitlines B ++ [[]]) ++ sentinel :: (R ++ [] :: lA :: lsA))
            (splitlines B ++ [[]]).length
          = (splitlines B ++ [[]]).length + 1 + (R.length + 1) := by
        unfold spliceEnd
        rw [hdrop, findH1_append_h1 (R ++ [[]]) hQclean lA hlAH1 lsA]
        show (splitlines B ++ [[]]).length + 1 + (R ++ [[]]).length
            = (splitlines B ++ [[]]).length + 1 + (R.length + 1)
        simp only [List.length_append, List.length_singleton]
      have hafter : spliceAfter
            ((splitlines B ++ [[]]) ++ sentinel :: (R ++ [] :: lA :: lsA))
            (splitlines B ++ [[]]).length = Ar := by
        unfold spliceAfter
        rw [hend,
          show (splitlines B ++ [[]]) ++ sentinel :: (R ++ [] :: lA :: lsA)
            = (((splitlines B ++ [[]]) ++ [sentinel]) ++ (R ++ [[]])) ++ lA :: lsA
            from by simp,
          List.drop_left' (by
            simp only [List.length_append, List.length_singleton]),
          ← hsplitAr, joinNl_splitlines Ar hArlast, lstrip_of_startsH1 Ar hArH1]
      have hbefore : spliceBefore
            ((splitlines B ++ [[]]) ++ sentinel :: (R ++ [] :: lA :: lsA))
            (splitlines B ++ [[]]).length = B := by
        unfold spliceBefore
        rw [List.take_left]
        exact hbeforeB
      unfold spliceFound
      rw [hbefore, hafter, if_neg hB, if_neg hA, hArr]
      simp

/-- Claim C1, counterexample.  Splice is not idempotent for every document
and section: when the section does not contain the `# Blog` sentinel, the
second pass finds no sentinel in the previous output and appends the
section again. -/
theorem splice_not_idempotent_cex :
    replace_blog_section
        (replace_blog_section ("hello".toList) ("world".toList))
        ("world".toList)
      ≠ replace_blog_section ("hello".toList) ("world".toList) := by
  decide

/-- Claim C1 (amended).  Splice is idempotent —
`splice(splice(D, S), S) = splice(D, S)` byte for byte — for every
document `D` and section `S` free of the `pyOddWs` characters (the line
terminators other than newline and the non-ASCII whitespace, on which
this embedding's line model is exact: outside that domain the program is
not idempotent either, because the second pass rewrites, for example, a
carriage return in the document to a newline), provided the trimmed
section begins with the sentinel line `# Blog` and has no later line
starting with `"# "`, the document contains at least one non-whitespace
character, and no `"# "`-headed line of the document strips to a bare
`#`.  (Each hypothesis is needed: without the sentinel the section is
appended again; on an all-whitespace document the first pass leaves two
leading newlines the second pass removes; a document line `"# "` is
truncated to `#` by the first pass's `after.rstrip()` and then no longer
bounds the region.) -/
theorem splice_idempotent (D S : List Char)
    (_hDpure : ∀ c ∈ D, pyOddWs c = false)
    (_hSpure : ∀ c ∈ S, pyOddWs c = false)
    (hD1 : rstrip D ≠ [])
    (hD2 : ∀ l ∈ splitlines D, startsH1 l = true → strip l ≠ ['#'])
    (hhead : (splitlines (strip S)).head? = some sentinel)
    (htail : ∀ l ∈ (splitlines (strip S)).tail, startsH1 l = false) :
    replace_blog_section (replace_blog_section D S) S
      = replace_blog_section D S := by
  obtain ⟨R, hR⟩ : ∃ R, splitlines (strip S) = sentinel :: R := by
    cases hsp : splitlines (strip S) with
    | nil => rw [hsp] at hhead; exact absurd hhead (by simp)
    | cons a r =>
      rw [hsp] at hhead
      simp only [List.head?_cons, Option.some.injEq] at hhead
      exact ⟨r, by rw [hhead]⟩
  have hRtail : ∀ l ∈ R, startsH1 l = false := by
    intro l hl
    apply htail
    rw [hR]
    exact hl
  cases hfind : findSent (splitlines D) with
  | none =>
    have hclean : ∀ l ∈ splitlines (rstrip D), strip l ≠ sentinel :=
      splitlines_rstrip_strip D (· ≠ sentinel)
        ((findSent_eq_none_iff _).mp hfind)
    have hform : replace_blog_section D S
        = (if rstrip D = [] then [] else rstrip D ++ ['\n', '\n'])
          ++ strip S ++ ['\n']
          ++ (if ([] : List Char) = [] then []
              else '\n' :: (([] : List Char) ++ ['\n'])) := by
      unfold replace_blog_section
      rw [hfind, if_neg hD1, if_pos rfl]
      simp
    rw [hform]
    exact splice_canonical S (rstrip D) [] R hR hRtail (rstrip_idem D)
      hclean (Or.inl rfl)
  | some start =>
    obtain ⟨P₀, l₀, R₀, hD, hlen, hP₀, hsent₀⟩ :=
      findSent_some (splitlines D) start hfind
    have htake : (splitlines D).take start = P₀ := by
      rw [hD]; exact List.take_left' hlen
    have hBdef : spliceBefore (splitlines D) start = rstrip (joinNl P₀) := by
      unfold spliceBefore; rw [htake]
    have hBr : rstrip (spliceBefore (splitlines D) start)
        = spliceBefore (splitlines D) start := by
      rw [hBdef]; exact rstrip_idem _
    have hBclean : ∀ l ∈ splitlines (spliceBefore (splitlines D) start),
        strip l ≠ sentinel := by
      rw [hBdef]
      apply splitlines_rstrip_strip (joinNl P₀) (· ≠ sentinel)
      intro l hl
      have hnl : ∀ m ∈ P₀, '\n' ∉ m := by
        intro m hm
        exact nl_not_mem_splitlines D m (hD ▸ List.mem_append_left _ hm)
      exact hP₀ l (mem_splitlines_joinNl P₀ hnl l hl)
    have hdrop1 : (splitlines D).drop (start + 1) = R₀ := by
      rw [hD, show P₀ ++ l₀ :: R₀ = (P₀ ++ [l₀]) ++ R₀ from by simp]
      exact List.drop_left' (by simp [hlen])
    cases hfh : findH1 R₀ with
    | none =>
      have hend : spliceEnd (splitlines D) start = (splitlines D).length := by
        unfold spliceEnd; rw [hdrop1, hfh]
      have hafter : spliceAfter (splitlines D) start = [] := by
        unfold spliceAfter; rw [hend, List.drop_length]; rfl
      have hform : replace_blog_section D S
          = (if spliceBefore (splitlines D) start = [] then []
             else spliceBefore (splitlines D) start ++ ['\n', '\n'])
            ++ strip S ++ ['\n']
            ++ (if ([] : List Char) = [] then []
                else '\n' :: (([] : List Char) ++ ['\n'])) := by
        unfold replace_blog_section
        rw [hfind]
        show spliceFound (splitlines D) start S = _
        unfold spliceFound
        rw [hafter]
        rfl
      rw [hform]
      exact splice_canonical S (spliceBefore (splitlines D) start) [] R
        hR hRtail hBr hBclean (Or.inl rfl)
    | some k =>
      obtain ⟨A₁, h1, A₂, hR₀, hklen, hA₁, hH1⟩ := findH1_some R₀ k hfh
      have hend : spliceEnd (splitlines D) start = start + 1 + k := by
        unfold spliceEnd; rw [hdrop1, hfh]
      have hdrop2 : (splitlines D).drop (start + 1 + k) = h1 :: A₂ := by
        rw [hD, hR₀,
          show P₀ ++ l₀ :: (A₁ ++ h1 :: A₂)
            = ((P₀ ++ [l₀]) ++ A₁) ++ h1 :: A₂ from by simp]
        refine List.drop_left' ?_
        simp only [List.length_append, List.length_singleton, hlen, hklen]
      have hjH1 : startsH1 (joinNl (h1 :: A₂)) = true := by
        cases A₂ with
        | nil => simpa [joinNl_single] using hH1
        | cons y ys =>
          rw [joinNl_cons _ _ (by simp)]
          exact startsH1_append h1 _ hH1
      have hAdef : spliceAfter (splitlines D) start = joinNl (h1 :: A₂) := by
        unfold spliceAfter
        rw [hend, hdrop2, lstrip_of_startsH1 _ hjH1]
      have hjne : joinNl (h1 :: A₂) ≠ [] := by
        obtain ⟨r, hr⟩ := (startsH1_iff _).mp hjH1
        rw [hr]; simp
      have hArH1 : startsH1 (rstrip (joinNl (h1 :: A₂))) = true := by
        rcases rstrip_startsH1 _ hjH1 with hbad | hok
        · exfalso
          obtain ⟨r1, hr1⟩ := (startsH1_iff h1).mp hH1
          obtain ⟨w, hw, hdecomp⟩ := rstrip_decomp (joinNl (h1 :: A₂))
          rw [hbad] at hdecomp
          obtain ⟨z, hz⟩ : ∃ z, joinNl (h1 :: A₂) = h1 ++ z := by
            cases A₂ with
            | nil => exact ⟨[], by simp [joinNl_single]⟩
            | cons y ys => exact ⟨'\n' :: joinNl (y :: ys), joinNl_cons _ _ (by simp)⟩
          rw [hz, hr1] at hdecomp
          have hweq : ' ' :: (r1 ++ z) = w := by
            simpa using hdecomp
          have hwall : ∀ c ∈ ' ' :: r1, pyWs c = true := by
            intro c hc
            apply hw
            rw [← hweq]
            rcases List.mem_cons.mp hc with rfl | hc
            · exact List.mem_cons_self _ _
            · exact List.mem_cons_of_mem _ (List.mem_append_left z hc)
          have hstriph1 : strip h1 = ['#'] := by
            rw [hr1]
            unfold strip
            rw [lstrip_cons, if_neg (by decide)]
            calc rstrip ('#' :: ' ' :: r1)
                = rstrip (['#'] ++ ' ' :: r1) := rfl
              _ = rstrip ['#'] := rstrip_append_ws _ hwall ['#']
              _ = ['#'] := by decide
          have hmem : h1 ∈ splitlines D := by
            rw [hD, hR₀]
            simp
          exact hD2 h1 hmem hH1 hstriph1
        · exact hok
      have hArne : rstrip (joinNl (h1 :: A₂)) ≠ [] := by
        obtain ⟨r, hr⟩ := (startsH1_iff _).mp hArH1
        rw [hr]; simp
      have hform : replace_blog_section D S
          = (if spliceBefore (splitlines D) start = [] then []
             else spliceBefore (splitlines D) start ++ ['\n', '\n'])
            ++ strip S ++ ['\n']
            ++ (if rstrip (joinNl (h1 :: A₂)) = [] then []
                else '\n' :: (rstrip (joinNl (h1 :: A₂)) ++ ['\n'])) := by
        unfold replace_blog_section
        rw [hfind]
        show spliceFound (splitlines D) start S = _
        unfold spliceFound
        rw [hAdef, if_neg hjne, if_neg hArne]
      rw [hform]
      exact splice_canonical S (spliceBefore (splitlines D) start)
        (rstrip (joinNl (h1 :: A₂))) R hR hRtail hBr hBclean
        (Or.inr ⟨rstrip_idem _, hArH1⟩)

/-- Claim C1 witness. -/
theorem splice_idempotent_witness :
    replace_blog_section
        (replace_blog_section ("intro text".toList) ("# Blog\n- [a](b)".toList))
        ("# Blog\n- [a](b)".toList)
      = replace_blog_section ("intro text".toList) ("# Blog\n- [a](b)".toList) :=
  splice_idempotent ("intro text".toList) ("# Blog\n- [a](b)".toList)
    (by decide) (by decide) (by decide) (by decide) (by decide) (by decide)

end Blog
